import Mathlib

/-!
A verification development for the `bjapid` PID controller (`src/pid.c`).

The controller state `struct pid_data` and the operations `pid_init`, `pid_free`,
`pid_control` and the five accessors are embedded as Lean definitions.

Modelling conventions.

* `float` values are exact rationals (`ℚ`): rounding, overflow to infinity and
  NaN inputs are outside the model.  The one place where the C code can leave
  the finite numbers on finite inputs, the quotient by `delta_time`, is kept
  visible: a quotient by zero is `none` ("not a finite number") and every
  value computed from it is `none` too.
* `uint8_t` values are natural numbers, reduced modulo `2^8` wherever the C
  code converts to or increments a `uint8_t`.
* the two heap buffers are lists; reading or writing outside a buffer and the
  integer remainder by zero (both undefined behaviour in C) are error results.
* `assert` is active (no `NDEBUG`); `malloc` always succeeds.
-/

namespace Pid

/-- The ways in which an operation can fail to return. -/
inductive pid_error where
  /-- an `assert` of `pid_init` failed (the program aborts) -/
  | assertion_failed
  /-- a buffer was indexed outside its allocated size -/
  | index_out_of_range
  /-- integer remainder with a zero modulus -/
  | modulo_by_zero
  /-- the loop bound of the embedding was exhausted -/
  | out_of_fuel
  /-- a null pointer was dereferenced -/
  | null_dereference
  deriving DecidableEq, Repr

/-- The controller state, `struct pid_data` of `pid.c`. -/
structure pid_data where
  setpoint : ℚ
  Kp : ℚ
  Ki : ℚ
  Kd : ℚ
  integral : ℚ
  current : Nat
  history_length : Nat
  interval : List ℚ
  history : List ℚ
  deriving DecidableEq, Repr

/-- Conversion to `uint8_t`. -/
def to_uint8 (n : Nat) : Nat := n % 2 ^ 8

/-- The rvalue `buf[i]`. -/
def buf_read (buf : List ℚ) (i : Nat) : Except pid_error ℚ :=
  match buf[i]? with
  | some x => .ok x
  | none => .error .index_out_of_range

/-- The assignment `buf[i] = x`. -/
def buf_write (buf : List ℚ) (i : Nat) (x : ℚ) : Except pid_error (List ℚ) :=
  if i < buf.length then .ok (buf.set i x) else .error .index_out_of_range

/-- The call `malloc(n * sizeof(float))`: a buffer of `n` floats.  Its contents are
unspecified in C; the model fills it with zeros (no slot is read before it has
been written). -/
def malloc_floats (n : Nat) : List ℚ := List.replicate n 0

/-- The statement `assert(c)`. -/
def c_assert (c : Bool) : Except pid_error Unit :=
  if c then .ok () else .error .assertion_failed

/-- The quotient `a / b` of two floats: `none` when `b` is zero (the C result is an
infinity or a NaN). -/
def float_div (a b : ℚ) : Option ℚ :=
  if b = 0 then none else some (a / b)

/-- The statement `a %= b` on unsigned integers. -/
def uint_mod (a b : Nat) : Except pid_error Nat :=
  if b = 0 then .error .modulo_by_zero else .ok (a % b)

/-- The `for` loop of `pid_init` (lines 52-56), entered at the loop test with counter
`i`; `fuel` bounds the number of loop tests. -/
def pid_init_loop : Nat → pid_data → Nat → Except pid_error pid_data
  | 0, _, _ => .error .out_of_fuel
  | fuel + 1, pid, i =>
    if i < pid.history_length then do
      let history ← buf_write pid.history i pid.setpoint
      let pid := { pid with history := history }
      let interval ← buf_write pid.interval i 1
      let pid := { pid with interval := interval }
      let h ← buf_read pid.history i
      let iv ← buf_read pid.interval i
      let pid := { pid with integral := pid.integral + (pid.setpoint - h) * iv }
      pid_init_loop fuel pid (to_uint8 (i + 1))
    else
      .ok pid

/-- The constructor `pid_init` (lines 31-58).  The parameter `history_length` is a
`uint8_t`: the argument is converted on entry. -/
def pid_init (history_length : Nat) (setpoint Kp Ki Kd : ℚ) : Except pid_error pid_data := do
  let history_length := to_uint8 history_length
  c_assert (decide (Kp ≥ 0))
  c_assert (decide (Ki ≥ 0))
  c_assert (decide (Kp ≥ 0))
  let pid : pid_data :=
    { setpoint := setpoint
      Kp := Kp
      Ki := Ki
      Kd := Kd
      integral := 0
      current := 0
      history_length := history_length
      interval := malloc_floats history_length
      history := malloc_floats history_length }
  pid_init_loop (2 ^ 8 + 1) pid 0

/-- The update `pid_control` (lines 67-124): the control output (`none` when it is
not a finite number) and the state after the call. -/
def pid_control (pid : pid_data) (process_value delta_time : ℚ) :
    Except pid_error (Option ℚ × pid_data) := do
  let error := pid.setpoint - process_value
  let tm1 := pid.current
  let h ← buf_read pid.history tm1
  let hist_error := pid.setpoint - h
  let iv ← buf_read pid.interval tm1
  let hist_integral := hist_error * iv
  let pid := { pid with integral := pid.integral - hist_integral }
  let pid := { pid with integral := pid.integral + error * delta_time }
  let h ← buf_read pid.history tm1
  let derivative := float_div (process_value - h) delta_time
  let output := derivative.map fun d => pid.Kp * error + pid.Ki * pid.integral + pid.Kd * d
  let history ← buf_write pid.history tm1 process_value
  let pid := { pid with history := history }
  let interval ← buf_write pid.interval tm1 delta_time
  let pid := { pid with interval := interval }
  let tm1 := to_uint8 (tm1 + 1)
  let tm1 ← uint_mod tm1 pid.history_length
  let pid := { pid with current := tm1 }
  return (output, pid)

/-- Accessor `get_history_length` (lines 127-129): the value returned and the state
after the call. -/
def get_history_length (pid : pid_data) : Nat × pid_data := (pid.history_length, pid)

/-- Accessor `get_setpoint` (lines 131-133). -/
def get_setpoint (pid : pid_data) : ℚ × pid_data := (pid.setpoint, pid)

/-- Accessor `get_Kp` (lines 135-137). -/
def get_Kp (pid : pid_data) : ℚ × pid_data := (pid.Kp, pid)

/-- Accessor `get_Ki` (lines 139-141). -/
def get_Ki (pid : pid_data) : ℚ × pid_data := (pid.Ki, pid)

/-- Accessor `get_Kd` (lines 143-145). -/
def get_Kd (pid : pid_data) : ℚ × pid_data := (pid.Kd, pid)

/-- The destructor `pid_free` (lines 60-65), acting on the caller's handle `*pid`
(`none` is the null pointer): the buffers and the controller are released and the
handle is set to null.  Reading the buffers through a null handle is undefined
behaviour.  The model has no heap, so the released storage is simply dropped. -/
def pid_free (handle : Option pid_data) : Except pid_error (Option pid_data) :=
  match handle with
  | none => .error .null_dereference
  | some _ => .ok none

/-- The local `derivative` of `pid_control` (lines 94 and 103): the quotient computed
from the slot `current` of the state the call starts from. -/
def pid_derivative (pid : pid_data) (process_value delta_time : ℚ) :
    Except pid_error (Option ℚ) := do
  let tm1 := pid.current
  let h ← buf_read pid.history tm1
  return float_div (process_value - h) delta_time

/-- A sequence of `pid_control` calls, one per sample `(process_value, delta_time)`,
on the same controller: the outputs in call order and the final state. -/
def pid_run : pid_data → List (ℚ × ℚ) → Except pid_error (List (Option ℚ) × pid_data)
  | pid, [] => .ok ([], pid)
  | pid, s :: rest => do
    let (out, pid) ← pid_control pid s.1 s.2
    let (outs, pid) ← pid_run pid rest
    return (out :: outs, pid)

/-! Closed forms used in the statements -/

/-- The state `pid_init` returns: every history slot at the setpoint, every interval
slot at `1`, zero integral, `current = 0`. -/
def pid_initial (history_length : Nat) (setpoint Kp Ki Kd : ℚ) : pid_data :=
  { setpoint := setpoint
    Kp := Kp
    Ki := Ki
    Kd := Kd
    integral := 0
    current := 0
    history_length := history_length
    interval := List.replicate history_length 1
    history := List.replicate history_length setpoint }

/-- The state left by one `pid_control` call that read `h` and `iv` from the slot
`current`. -/
def pid_after (pid : pid_data) (process_value delta_time h iv : ℚ) : pid_data :=
  { pid with
    integral := pid.integral - (pid.setpoint - h) * iv
      + (pid.setpoint - process_value) * delta_time
    history := pid.history.set pid.current process_value
    interval := pid.interval.set pid.current delta_time
    current := to_uint8 (pid.current + 1) % pid.history_length }

/-- The output of one `pid_control` call that read `h` and `iv` from the slot
`current`. -/
def pid_output (pid : pid_data) (process_value delta_time h iv : ℚ) : Option ℚ :=
  (float_div (process_value - h) delta_time).map fun d =>
    pid.Kp * (pid.setpoint - process_value)
      + pid.Ki * (pid.integral - (pid.setpoint - h) * iv
          + (pid.setpoint - process_value) * delta_time)
      + pid.Kd * d

/-- The structural invariant of a controller state: the index is inside the buffers,
both buffers have `history_length` slots, and `history_length` is a `uint8_t`. -/
def pid_wf (pid : pid_data) : Prop :=
  pid.history_length < 2 ^ 8 ∧ pid.current < pid.history_length ∧
    pid.history.length = pid.history_length ∧ pid.interval.length = pid.history_length

/-- The states a caller can obtain from `pid_init history_length setpoint Kp Ki Kd` by any
number of returning `pid_control` calls. -/
inductive reachable (history_length : Nat) (setpoint Kp Ki Kd : ℚ) : pid_data → Prop where
  | init {pid : pid_data} :
      pid_init history_length setpoint Kp Ki Kd = .ok pid →
      reachable history_length setpoint Kp Ki Kd pid
  | step {pid pid1 : pid_data} {process_value delta_time : ℚ} {out : Option ℚ} :
      reachable history_length setpoint Kp Ki Kd pid →
      pid_control pid process_value delta_time = .ok (out, pid1) →
      reachable history_length setpoint Kp Ki Kd pid1

/-- The term one sample `(process_value, delta_time)` adds to the integral. -/
def contribution (setpoint : ℚ) (s : ℚ × ℚ) : ℚ := (setpoint - s.1) * s.2

/-- The sum of the contributions of the most recent `min n N` of the `n` samples `ss`. -/
def window_sum (setpoint : ℚ) (N : Nat) (ss : List (ℚ × ℚ)) : ℚ :=
  ((ss.drop (ss.length - N)).map (contribution setpoint)).sum

/-- The state of a controller with `N` slots after the samples `ss` (in call order):
sample number `j` (from 0) of the last `N` sits in slot `j % N`, the slots never written
hold the initial values, and the integral is the sum over the window. -/
def run_inv (N : Nat) (setpoint Kp Ki Kd : ℚ) (ss : List (ℚ × ℚ)) (pid : pid_data) : Prop :=
  pid.setpoint = setpoint ∧ pid.Kp = Kp ∧ pid.Ki = Ki ∧ pid.Kd = Kd ∧
  pid.history_length = N ∧ pid.current = ss.length % N ∧
  pid.history.length = N ∧ pid.interval.length = N ∧
  (∀ j s, ss[j]? = some s → ss.length ≤ j + N →
    pid.history[j % N]? = some s.1 ∧ pid.interval[j % N]? = some s.2) ∧
  (∀ i, ss.length ≤ i → i < N →
    pid.history[i]? = some setpoint ∧ pid.interval[i]? = some 1) ∧
  pid.integral = window_sum setpoint N ss

/-- The sample in the slot `current` after the samples `ss`: the one taken `N` calls
ago, or the initial `(setpoint, 1)` when fewer than `N` calls have been made. -/
def oldest (setpoint : ℚ) (N : Nat) (ss : List (ℚ × ℚ)) : ℚ × ℚ :=
  if ss.length < N then (setpoint, 1) else ss.getD (ss.length - N) (setpoint, 1)

/-- The sum over all `history_length` slots `i` of
`(setpoint - history[i]) * interval[i]`. -/
def buffer_sum (pid : pid_data) : ℚ :=
  ∑ i ∈ Finset.range pid.history_length,
    (pid.setpoint - pid.history.getD i 0) * pid.interval.getD i 0

/-! Construction -/

theorem set_fill (N i : Nat) (a : ℚ) (hi : i < N) :
    (List.replicate i a ++ List.replicate (N - i) 0).set i a
      = List.replicate (i + 1) a ++ List.replicate (N - (i + 1)) 0 := by
  obtain ⟨k, rfl⟩ : ∃ k, N = i + (k + 1) := ⟨N - i - 1, by omega⟩
  have h1 : i + (k + 1) - i = k + 1 := by omega
  have h2 : i + (k + 1) - (i + 1) = k := by omega
  rw [h1, h2, List.set_append_right _ _ (by simp), List.replicate_succ' i a]
  simp [List.replicate_succ]

theorem getElem?_fill (N i : Nat) (a : ℚ) :
    (List.replicate (i + 1) a ++ List.replicate (N - (i + 1)) 0)[i]? = some a := by
  rw [List.getElem?_append_left (by simp)]
  simp

theorem length_fill (N i : Nat) (a : ℚ) (hi : i ≤ N) :
    (List.replicate i a ++ List.replicate (N - i) 0).length = N := by
  simp; omega

/-- The loop of `pid_init`, entered at counter `i` with the first `i` slots already
initialised, runs to completion and leaves every slot initialised. -/
theorem pid_init_loop_eq (N : Nat) (sp Kp Ki Kd : ℚ) (hN : N < 2 ^ 8) :
    ∀ (fuel i : Nat), i ≤ N → N - i < fuel →
      pid_init_loop fuel
        { setpoint := sp, Kp := Kp, Ki := Ki, Kd := Kd, integral := 0, current := 0,
          history_length := N,
          interval := List.replicate i 1 ++ List.replicate (N - i) 0,
          history := List.replicate i sp ++ List.replicate (N - i) 0 } i
        = .ok (pid_initial N sp Kp Ki Kd) := by
  intro fuel
  induction fuel with
  | zero => intro i _ h; omega
  | succ fuel ih =>
    intro i hi hfuel
    by_cases hlt : i < N
    · have hw1 : i < (List.replicate i sp ++ List.replicate (N - i) (0 : ℚ)).length := by
        rw [length_fill N i sp hi]; exact hlt
      have hw2 : i < (List.replicate i (1 : ℚ) ++ List.replicate (N - i) 0).length := by
        rw [length_fill N i 1 hi]; exact hlt
      have hu : to_uint8 (i + 1) = i + 1 := Nat.mod_eq_of_lt (by omega)
      have hrec := ih (i + 1) hlt (by omega)
      simp only [pid_init_loop, hlt, if_true, buf_write, hw1, hw2, set_fill N i _ hlt,
        buf_read, getElem?_fill, bind, Except.bind, hu]
      simpa using hrec
    · have hiN : i = N := by omega
      subst hiN
      simp [pid_init_loop, pid_initial]

/-- `pid_init` with non-negative `Kp` and `Ki` returns the initial state (whatever the
sign of `Kd`: the third assertion tests `Kp` again). -/
theorem pid_init_eq (N : Nat) (sp Kp Ki Kd : ℚ) (hN : N < 2 ^ 8) (hKp : 0 ≤ Kp) (hKi : 0 ≤ Ki) :
    pid_init N sp Kp Ki Kd = .ok (pid_initial N sp Kp Ki Kd) := by
  have hu : to_uint8 N = N := Nat.mod_eq_of_lt hN
  have h := pid_init_loop_eq N sp Kp Ki Kd hN (2 ^ 8 + 1) 0 (Nat.zero_le _) (by omega)
  simp only [pid_init, hu, c_assert, ge_iff_le, hKp, hKi, decide_True, if_true, bind,
    Except.bind, malloc_floats]
  simpa using h

/-! One update -/

theorem buf_read_of_getElem? {buf : List ℚ} {i : Nat} {x : ℚ} (h : buf[i]? = some x) :
    buf_read buf i = .ok x := by
  simp [buf_read, h]

theorem lt_length_of_getElem? {α : Type} {buf : List α} {i : Nat} {x : α}
    (h : buf[i]? = some x) : i < buf.length := by
  by_contra hlt
  rw [List.getElem?_eq_none (Nat.le_of_not_lt hlt)] at h
  cases h

theorem pid_control_eq (pid : pid_data) (pv dt h iv : ℚ)
    (hh : pid.history[pid.current]? = some h) (hi : pid.interval[pid.current]? = some iv)
    (hN : pid.history_length ≠ 0) :
    pid_control pid pv dt = .ok (pid_output pid pv dt h iv, pid_after pid pv dt h iv) := by
  have h1 := lt_length_of_getElem? hh
  have h2 := lt_length_of_getElem? hi
  simp [pid_control, buf_read_of_getElem? hh, buf_read_of_getElem? hi, buf_write, h1, h2,
    uint_mod, hN, pid_output, pid_after, bind, Except.bind, pure, Except.pure]

/-- C1. For a controller state with `current < history_length` whose slot `current`
holds `h` (history) and `iv` (interval), and `delta_time ≠ 0`, `pid_control`
returns `Kp*error + Ki*integral' + Kd*derivative` with `error = setpoint -
process_value`, `integral' = integral - (setpoint - h)*iv + error*delta_time` (the
integral after this update's adjustment) and `derivative = (process_value - h) /
delta_time`, everything read from the state before the update. -/
theorem pid_control_output_formula (pid : pid_data) (pv dt h iv : ℚ)
    (hcur : pid.current < pid.history_length)
    (hh : pid.history[pid.current]? = some h) (hi : pid.interval[pid.current]? = some iv)
    (hdt : dt ≠ 0) :
    ∃ pid1, pid_control pid pv dt =
      .ok (some (pid.Kp * (pid.setpoint - pv)
            + pid.Ki * (pid.integral - (pid.setpoint - h) * iv + (pid.setpoint - pv) * dt)
            + pid.Kd * ((pv - h) / dt)), pid1) := by
  refine ⟨pid_after pid pv dt h iv, ?_⟩
  rw [pid_control_eq pid pv dt h iv hh hi (by omega)]
  simp [pid_output, float_div, hdt]

/-! Well-formed states -/

theorem pid_initial_wf (N : Nat) (sp Kp Ki Kd : ℚ) (hN1 : 1 ≤ N) (hN : N < 2 ^ 8) :
    pid_wf (pid_initial N sp Kp Ki Kd) := by
  exact ⟨hN, hN1, by simp [pid_initial], by simp [pid_initial]⟩

theorem next_index (c N : Nat) (hc : c < N) (hN : N < 2 ^ 8) :
    to_uint8 (c + 1) % N = (c + 1) % N := by
  have h : to_uint8 (c + 1) = c + 1 := Nat.mod_eq_of_lt (by omega)
  rw [h]

theorem pid_after_wf (pid : pid_data) (pv dt h iv : ℚ) (hwf : pid_wf pid) :
    pid_wf (pid_after pid pv dt h iv) := by
  obtain ⟨h1, h2, h3, h4⟩ := hwf
  refine ⟨h1, ?_, ?_, ?_⟩
  · show to_uint8 (pid.current + 1) % pid.history_length < pid.history_length
    exact Nat.mod_lt _ (by omega)
  · simp [pid_after, h3]
  · simp [pid_after, h4]

/-- In a well-formed state `pid_control` returns, with the closed-form output and state. -/
theorem pid_control_of_wf (pid : pid_data) (pv dt : ℚ) (hwf : pid_wf pid) :
    ∃ h iv, pid.history[pid.current]? = some h ∧ pid.interval[pid.current]? = some iv ∧
      pid_control pid pv dt = .ok (pid_output pid pv dt h iv, pid_after pid pv dt h iv) := by
  obtain ⟨_, h2, h3, h4⟩ := hwf
  have hh : pid.history[pid.current]? = some (pid.history[pid.current]) :=
    List.getElem?_eq_getElem (by omega)
  have hi : pid.interval[pid.current]? = some (pid.interval[pid.current]) :=
    List.getElem?_eq_getElem (by omega)
  exact ⟨_, _, hh, hi, pid_control_eq pid pv dt _ _ hh hi (by omega)⟩

/-- Every reachable state is well formed and carries the constructor's parameters. -/
theorem reachable_wf (N : Nat) (sp Kp Ki Kd : ℚ) (hN1 : 1 ≤ N) (hN : N < 2 ^ 8)
    (pid : pid_data) (hr : reachable N sp Kp Ki Kd pid) :
    pid_wf pid ∧ pid.setpoint = sp ∧ pid.Kp = Kp ∧ pid.Ki = Ki ∧ pid.Kd = Kd ∧
      pid.history_length = N := by
  induction hr with
  | init h0 =>
    by_cases hKp : 0 ≤ Kp
    · by_cases hKi : 0 ≤ Ki
      · rw [pid_init_eq N sp Kp Ki Kd hN hKp hKi] at h0
        cases h0
        exact ⟨pid_initial_wf N sp Kp Ki Kd hN1 hN, rfl, rfl, rfl, rfl, rfl⟩
      · simp [pid_init, c_assert, hKp, hKi, bind, Except.bind] at h0
    · simp [pid_init, c_assert, hKp, bind, Except.bind] at h0
  | @step p p1 pv dt out _ hc ih =>
    obtain ⟨hwf, e1, e2, e3, e4, e5⟩ := ih
    obtain ⟨h, iv, _, _, heq⟩ := pid_control_of_wf p pv dt hwf
    rw [heq] at hc
    cases hc
    exact ⟨pid_after_wf p pv dt h iv hwf, e1, e2, e3, e4, e5⟩

/-! Sequences of updates -/

theorem mod_ne_of_lt_of_lt_add {j n N : Nat} (h1 : j < n) (h2 : n < j + N) :
    n % N ≠ j % N := by
  intro h
  have h3 : (n - j) % N = 0 := Nat.sub_mod_eq_zero_of_mod_eq h
  have h4 : N ∣ n - j := Nat.dvd_of_mod_eq_zero h3
  have := Nat.le_of_dvd (by omega) h4
  omega

theorem window_sum_snoc_of_lt (sp : ℚ) (N : Nat) (ss : List (ℚ × ℚ)) (s : ℚ × ℚ)
    (h : ss.length < N) :
    window_sum sp N (ss ++ [s]) = window_sum sp N ss + contribution sp s := by
  have h1 : (ss ++ [s]).length - N = 0 := by simp; omega
  have h2 : ss.length - N = 0 := by omega
  rw [window_sum, window_sum, h1, h2]
  simp

theorem window_sum_snoc_of_le (sp : ℚ) (N : Nat) (ss : List (ℚ × ℚ)) (s : ℚ × ℚ)
    (hN1 : 1 ≤ N) (h : N ≤ ss.length) :
    window_sum sp N (ss ++ [s])
      = window_sum sp N ss - contribution sp (ss.getD (ss.length - N) (sp, 1))
        + contribution sp s := by
  have hlt : ss.length - N < ss.length := by omega
  have h1 : (ss ++ [s]).length - N = ss.length - N + 1 := by simp; omega
  have h2 : ss.getD (ss.length - N) (sp, 1) = ss[ss.length - N] := by
    rw [List.getD_eq_getElem?_getD, List.getElem?_eq_getElem hlt]; rfl
  rw [window_sum, window_sum, h1, h2, List.drop_append_of_le_length (by omega),
    List.drop_eq_getElem_cons hlt]
  simp only [List.map_append, List.map_cons, List.map_nil, List.sum_append, List.sum_cons,
    List.sum_nil]
  ring

theorem window_sum_snoc (sp : ℚ) (N : Nat) (ss : List (ℚ × ℚ)) (s : ℚ × ℚ) (hN1 : 1 ≤ N) :
    window_sum sp N (ss ++ [s])
      = window_sum sp N ss - contribution sp (oldest sp N ss) + contribution sp s := by
  by_cases h : ss.length < N
  · rw [window_sum_snoc_of_lt sp N ss s h]
    simp [oldest, h, contribution]
  · rw [window_sum_snoc_of_le sp N ss s hN1 (by omega)]
    simp [oldest, h]

theorem run_inv_initial (N : Nat) (sp Kp Ki Kd : ℚ) :
    run_inv N sp Kp Ki Kd [] (pid_initial N sp Kp Ki Kd) := by
  refine ⟨rfl, rfl, rfl, rfl, rfl, by simp [pid_initial], by simp [pid_initial],
    by simp [pid_initial], ?_, ?_, by simp [pid_initial, window_sum]⟩
  · intro j s hj
    simp at hj
  · intro i _ hi
    simp [pid_initial, List.getElem?_replicate, hi]

/-- After the samples `ss` the slot `current` holds `oldest`. -/
theorem run_inv_oldest (N : Nat) (sp Kp Ki Kd : ℚ) (ss : List (ℚ × ℚ)) (pid : pid_data)
    (hN1 : 1 ≤ N) (hinv : run_inv N sp Kp Ki Kd ss pid) :
    pid.history[pid.current]? = some (oldest sp N ss).1 ∧
      pid.interval[pid.current]? = some (oldest sp N ss).2 := by
  obtain ⟨_, _, _, _, _, hcur, _, _, hnew, hinit, _⟩ := hinv
  rw [hcur]
  by_cases h : ss.length < N
  · rw [Nat.mod_eq_of_lt h]
    simpa [oldest, h] using hinit ss.length (Nat.le_refl _) h
  · have hlt : ss.length - N < ss.length := by omega
    have hget : ss[ss.length - N]? = some (ss.getD (ss.length - N) (sp, 1)) := by
      rw [List.getD_eq_getElem?_getD, List.getElem?_eq_getElem hlt]; rfl
    have hmod : ss.length % N = (ss.length - N) % N := Nat.mod_eq_sub_mod (by omega)
    rw [hmod]
    simpa [oldest, h] using hnew (ss.length - N) _ hget (by omega)

/-- One more update keeps the description of the state by the samples seen so far. -/
theorem run_inv_after (N : Nat) (sp Kp Ki Kd : ℚ) (ss : List (ℚ × ℚ)) (pid : pid_data)
    (s : ℚ × ℚ) (hN1 : 1 ≤ N) (hN : N < 2 ^ 8) (hinv : run_inv N sp Kp Ki Kd ss pid) :
    run_inv N sp Kp Ki Kd (ss ++ [s])
      (pid_after pid s.1 s.2 (oldest sp N ss).1 (oldest sp N ss).2) := by
  obtain ⟨e1, e2, e3, e4, hlen, hcur, hl1, hl2, hnew, hinit, hint⟩ := hinv
  have hc : pid.current < N := by rw [hcur]; exact Nat.mod_lt _ (by omega)
  refine ⟨e1, e2, e3, e4, hlen, ?_, ?_, ?_, ?_, ?_, ?_⟩
  · show to_uint8 (pid.current + 1) % pid.history_length = (ss ++ [s]).length % N
    rw [hlen, next_index pid.current N hc hN, hcur, Nat.mod_add_mod]
    simp
  · simp [pid_after, hl1]
  · simp [pid_after, hl2]
  · intro j t hj hwin
    have hjlt : j < (ss ++ [s]).length := lt_length_of_getElem? hj
    simp only [List.length_append, List.length_singleton] at hjlt hwin
    show (pid.history.set pid.current s.1)[j % N]? = some t.1 ∧
      (pid.interval.set pid.current s.2)[j % N]? = some t.2
    by_cases hjn : j = ss.length
    · subst hjn
      rw [List.getElem?_append_right (Nat.le_refl _)] at hj
      simp at hj
      subst hj
      rw [← hcur]
      exact ⟨List.getElem?_set_self (by omega), List.getElem?_set_self (by omega)⟩
    · have hjl : j < ss.length := by omega
      rw [List.getElem?_append_left hjl] at hj
      have hne : pid.current ≠ j % N := by
        rw [hcur]; exact mod_ne_of_lt_of_lt_add hjl (by omega)
      rw [List.getElem?_set_ne hne, List.getElem?_set_ne hne]
      exact hnew j t hj (by omega)
  · intro i hi hiN
    simp only [List.length_append, List.length_singleton] at hi
    have hne : pid.current ≠ i := by
      rw [hcur, Nat.mod_eq_of_lt (by omega)]; omega
    show (pid.history.set pid.current s.1)[i]? = some sp ∧
      (pid.interval.set pid.current s.2)[i]? = some 1
    rw [List.getElem?_set_ne hne, List.getElem?_set_ne hne]
    exact hinit i (by omega) hiN
  · show pid.integral - (pid.setpoint - (oldest sp N ss).1) * (oldest sp N ss).2
        + (pid.setpoint - s.1) * s.2 = window_sum sp N (ss ++ [s])
    rw [window_sum_snoc sp N ss s hN1, hint, e1]
    rfl

theorem pid_run_snoc (pid p p1 : pid_data) (ss : List (ℚ × ℚ)) (s : ℚ × ℚ)
    (outs : List (Option ℚ)) (o : Option ℚ)
    (h1 : pid_run pid ss = .ok (outs, p)) (h2 : pid_control p s.1 s.2 = .ok (o, p1)) :
    pid_run pid (ss ++ [s]) = .ok (outs ++ [o], p1) := by
  induction ss generalizing pid outs with
  | nil =>
    simp only [pid_run] at h1
    cases h1
    simp [pid_run, h2, bind, Except.bind, pure, Except.pure]
  | cons t rest ih =>
    simp only [pid_run, bind, Except.bind, pure, Except.pure] at h1
    cases hc : pid_control pid t.1 t.2 with
    | error e => simp [hc] at h1
    | ok r =>
      obtain ⟨o1, q⟩ := r
      simp only [hc] at h1
      cases hr : pid_run q rest with
      | error e => simp [hr] at h1
      | ok r2 =>
        obtain ⟨os, q2⟩ := r2
        simp only [hr] at h1
        cases h1
        have := ih q os hr
        simp [pid_run, hc, this, bind, Except.bind, pure, Except.pure]

/-- Any sequence of updates on a fresh controller returns, and the final state is the
one described by `run_inv`. -/
theorem pid_run_initial (N : Nat) (sp Kp Ki Kd : ℚ) (hN1 : 1 ≤ N) (hN : N < 2 ^ 8)
    (ss : List (ℚ × ℚ)) :
    ∃ outs pid, pid_run (pid_initial N sp Kp Ki Kd) ss = .ok (outs, pid) ∧
      outs.length = ss.length ∧ run_inv N sp Kp Ki Kd ss pid := by
  induction ss using List.reverseRecOn with
  | nil => exact ⟨[], _, rfl, rfl, run_inv_initial N sp Kp Ki Kd⟩
  | append_singleton ss s ih =>
    obtain ⟨outs, pid, hrun, hlen, hinv⟩ := ih
    obtain ⟨hh, hi⟩ := run_inv_oldest N sp Kp Ki Kd ss pid hN1 hinv
    have hNz : pid.history_length ≠ 0 := by
      obtain ⟨_, _, _, _, h5, _⟩ := hinv
      omega
    have hstep := pid_control_eq pid s.1 s.2 _ _ hh hi hNz
    exact ⟨_, _, pid_run_snoc _ _ _ ss s outs _ hrun hstep, by simp [hlen],
      run_inv_after N sp Kp Ki Kd ss pid s hN1 hN hinv⟩

/-- The last of a sequence of updates on a fresh controller, in closed form. -/
theorem pid_run_initial_snoc (N : Nat) (sp Kp Ki Kd : ℚ) (hN1 : 1 ≤ N) (hN : N < 2 ^ 8)
    (ss : List (ℚ × ℚ)) (s : ℚ × ℚ) :
    ∃ outs pid, pid_run (pid_initial N sp Kp Ki Kd) ss = .ok (outs, pid) ∧
      outs.length = ss.length ∧ run_inv N sp Kp Ki Kd ss pid ∧
      pid_run (pid_initial N sp Kp Ki Kd) (ss ++ [s])
        = .ok (outs ++ [pid_output pid s.1 s.2 (oldest sp N ss).1 (oldest sp N ss).2],
            pid_after pid s.1 s.2 (oldest sp N ss).1 (oldest sp N ss).2) := by
  obtain ⟨outs, pid, hrun, hlen, hinv⟩ := pid_run_initial N sp Kp Ki Kd hN1 hN ss
  obtain ⟨hh, hi⟩ := run_inv_oldest N sp Kp Ki Kd ss pid hN1 hinv
  have hNz : pid.history_length ≠ 0 := by
    obtain ⟨_, _, _, _, h5, _⟩ := hinv
    omega
  have hstep := pid_control_eq pid s.1 s.2 _ _ hh hi hNz
  exact ⟨outs, pid, hrun, hlen, hinv, pid_run_snoc _ _ _ ss s outs _ hrun hstep⟩

/-! The sliding window -/

theorem sum_drop_eq_sum_Icc (f : ℚ × ℚ → ℚ) (d : ℚ × ℚ) (l : List (ℚ × ℚ)) :
    ∀ a, a ≤ l.length →
      ((l.drop a).map f).sum = ∑ j ∈ Finset.Icc (a + 1) l.length, f (l.getD (j - 1) d) := by
  induction l using List.reverseRecOn with
  | nil =>
    intro a ha
    simp at ha
    subst ha
    simp
  | append_singleton l x ih =>
    intro a ha
    simp only [List.length_append, List.length_singleton] at ha ⊢
    by_cases hle : a ≤ l.length
    · rw [List.drop_append_of_le_length hle, Finset.sum_Icc_succ_top (by omega)]
      have hlast : (l ++ [x]).getD (l.length + 1 - 1) d = x := by
        simp [List.getD_eq_getElem?_getD]
      have hcongr : ∑ j ∈ Finset.Icc (a + 1) l.length, f ((l ++ [x]).getD (j - 1) d)
          = ∑ j ∈ Finset.Icc (a + 1) l.length, f (l.getD (j - 1) d) := by
        apply Finset.sum_congr rfl
        intro j hj
        rw [Finset.mem_Icc] at hj
        rw [List.getD_append l [x] d (j - 1) (by omega)]
      rw [hlast, hcongr, ← ih a hle]
      simp
    · have ha2 : a = l.length + 1 := by omega
      subst ha2
      rw [List.drop_of_length_le (by simp), Finset.Icc_eq_empty (by omega)]
      simp

/-- The window sum, written as the sum over the 1-based sample numbers
`max 1 (n - N + 1) ≤ j ≤ n`. -/
theorem window_sum_eq_sum_Icc (sp : ℚ) (N : Nat) (ss : List (ℚ × ℚ)) :
    window_sum sp N ss
      = ∑ j ∈ Finset.Icc (max 1 (ss.length - N + 1)) ss.length,
          (sp - (ss.getD (j - 1) (0, 0)).1) * (ss.getD (j - 1) (0, 0)).2 := by
  have hmax : max 1 (ss.length - N + 1) = ss.length - N + 1 := max_eq_right (by omega)
  rw [hmax, window_sum, sum_drop_eq_sum_Icc (contribution sp) (0, 0) ss _ (by omega)]
  rfl

/-- C2. Sliding-window integral: for a controller built by `pid_init` with
`history_length` `N`, `1 ≤ N ≤ 255`, and any sequence of `n` updates with samples
`(pv_1, dt_1), ..., (pv_n, dt_n)`, all the calls return and the integral stored after
the `n`-th equals the sum over `j` from `max 1 (n - N + 1)` to `n` of
`(setpoint - pv_j) * dt_j`: the contributions of the most recent `min n N` samples and
nothing older. -/
theorem pid_integral_sliding_window (N : Nat) (sp Kp Ki Kd : ℚ) (ss : List (ℚ × ℚ))
    (hN1 : 1 ≤ N) (hN : N ≤ 255) (hKp : 0 ≤ Kp) (hKi : 0 ≤ Ki) :
    ∃ pid0 outs pid, pid_init N sp Kp Ki Kd = .ok pid0 ∧ pid_run pid0 ss = .ok (outs, pid) ∧
      pid.integral
        = ∑ j ∈ Finset.Icc (max 1 (ss.length - N + 1)) ss.length,
            (sp - (ss.getD (j - 1) (0, 0)).1) * (ss.getD (j - 1) (0, 0)).2 := by
  have hN8 : N < 2 ^ 8 := by omega
  obtain ⟨outs, pid, hrun, _, hinv⟩ := pid_run_initial N sp Kp Ki Kd hN1 hN8 ss
  refine ⟨_, outs, pid, pid_init_eq N sp Kp Ki Kd hN8 hKp hKi, hrun, ?_⟩
  obtain ⟨_, _, _, _, _, _, _, _, _, _, hint⟩ := hinv
  rw [hint, window_sum_eq_sum_Icc]

/-! First update on a fresh controller -/

theorem pid_initial_slot0 (N : Nat) (sp Kp Ki Kd : ℚ) (hN1 : 1 ≤ N) :
    (pid_initial N sp Kp Ki Kd).history[(pid_initial N sp Kp Ki Kd).current]? = some sp ∧
      (pid_initial N sp Kp Ki Kd).interval[(pid_initial N sp Kp Ki Kd).current]? = some 1 := by
  have h0 : 0 < N := hN1
  simp [pid_initial, List.getElem?_replicate, h0]

theorem pid_control_initial (N : Nat) (sp Kp Ki Kd pv dt : ℚ) (hN1 : 1 ≤ N) :
    pid_control (pid_initial N sp Kp Ki Kd) pv dt
      = .ok (pid_output (pid_initial N sp Kp Ki Kd) pv dt sp 1,
          pid_after (pid_initial N sp Kp Ki Kd) pv dt sp 1) := by
  obtain ⟨hh, hi⟩ := pid_initial_slot0 N sp Kp Ki Kd hN1
  exact pid_control_eq _ pv dt sp 1 hh hi (by simp only [pid_initial]; omega)

/-- Witness for C1: a state with `current = 1`, three slots, the second update of a run. -/
theorem pid_control_output_formula_witness :
    ∃ pid1, pid_control
      { setpoint := 100, Kp := 1, Ki := 2, Kd := 3, integral := 8, current := 1,
        history_length := 3, interval := [2, 1, 1], history := [96, 100, 100] } 90 2
      = .ok (some (1 * (100 - 90) + 2 * (8 - (100 - 100) * 1 + (100 - 90) * 2)
          + 3 * ((90 - 100) / 2)), pid1) :=
  pid_control_output_formula
    { setpoint := 100, Kp := 1, Ki := 2, Kd := 3, integral := 8, current := 1,
      history_length := 3, interval := [2, 1, 1], history := [96, 100, 100] } 90 2 100 1
    (by decide) (by rfl) (by rfl) (by norm_num)

/-- Witness for C2: three updates on a window of two slots; the first sample has left
the window. -/
theorem pid_integral_sliding_window_witness :
    ∃ pid0 outs pid, pid_init 2 100 1 1 1 = .ok pid0 ∧
      pid_run pid0 [(90, 1), (95, 2), (98, 1)] = .ok (outs, pid) ∧
      pid.integral = (100 - 95) * 2 + (100 - 98) * 1 := by
  obtain ⟨pid0, outs, pid, h0, h1, h2⟩ :=
    pid_integral_sliding_window 2 100 1 1 1 [(90, 1), (95, 2), (98, 1)]
      (by decide) (by decide) (by norm_num) (by norm_num)
  refine ⟨pid0, outs, pid, h0, h1, ?_⟩
  rw [h2]
  have hI : Finset.Icc (max 1 ([((90 : ℚ), (1 : ℚ)), (95, 2), (98, 1)].length - 2 + 1))
      [((90 : ℚ), (1 : ℚ)), (95, 2), (98, 1)].length = {2, 3} := by decide
  rw [hI, Finset.sum_pair (by decide)]
  simp

/-! The derivative term -/

/-- C3 (code defect). With two slots the second update does not difference consecutive
process values: after `pid_init(2, 100, 0, 0, 1)` and `pid_control(110, 1)`, the call
`pid_control(120, 1)` returns `20 = Kd * (120 - 100) / 1`, the quotient against the
initial content of slot 1, and not `Kd * (120 - 110) / 1 = 10`. -/
theorem pid_control_derivative_not_consecutive :
    pid_init 2 100 0 0 1 = .ok (pid_initial 2 100 0 0 1) ∧
      (pid_run (pid_initial 2 100 0 0 1) [(110, 1), (120, 1)]).map Prod.fst
        = .ok [some 10, some 20] ∧
      (20 : ℚ) ≠ 1 * ((120 - 110) / 1) := by
  refine ⟨pid_init_eq 2 100 0 0 1 (by decide) (by norm_num) (by norm_num), ?_, by norm_num⟩
  simp [pid_run, pid_control, pid_initial, buf_read, buf_write, float_div, uint_mod, to_uint8,
    bind, Except.bind, pure, Except.pure, Except.map]
  norm_num

/-! The gain precondition -/

/-- C4 (code defect). A negative `Kd` is not rejected: the call
`pid_init(5, 100, 1, 1, -1)` passes the three assertions (the third tests `Kp` a second
time) and returns a controller whose `Kd` is `-1`. -/
theorem pid_init_accepts_negative_Kd :
    pid_init 5 100 1 1 (-1) = .ok (pid_initial 5 100 1 1 (-1)) ∧
      (pid_initial 5 100 1 1 (-1)).Kd = -1 :=
  ⟨pid_init_eq 5 100 1 1 (-1) (by decide) (by norm_num) (by norm_num), rfl⟩

/-- A negative `Kp` or `Ki` is rejected by the assertions. -/
theorem pid_init_rejects_negative_Kp_Ki (N : Nat) (sp Kp Ki Kd : ℚ) (h : Kp < 0 ∨ Ki < 0) :
    pid_init N sp Kp Ki Kd = .error .assertion_failed := by
  by_cases hKp : 0 ≤ Kp
  · have hKi : ¬ 0 ≤ Ki := by
      rcases h with h | h
      · exact absurd hKp (not_le.mpr h)
      · exact not_le.mpr h
    simp [pid_init, c_assert, hKp, hKi, bind, Except.bind]
  · simp [pid_init, c_assert, hKp, bind, Except.bind]

/-! Responses of the first update -/

/-- C5. Zero-integral initial condition: for `1 ≤ N ≤ 255`, any setpoint, non-negative
`Kp` and `Ki`, any `Kd` (so in particular every non-negative one) and `delta_time > 0`,
the first `pid_control` call on a freshly constructed controller with
`process_value = setpoint` returns exactly `0`. -/
theorem pid_control_perfect_control (N : Nat) (sp Kp Ki Kd dt : ℚ)
    (hN1 : 1 ≤ N) (hN : N ≤ 255) (hKp : 0 ≤ Kp) (hKi : 0 ≤ Ki) (hdt : 0 < dt) :
    ∃ pid0 pid1, pid_init N sp Kp Ki Kd = .ok pid0 ∧
      pid_control pid0 sp dt = .ok (some 0, pid1) := by
  refine ⟨pid_initial N sp Kp Ki Kd, pid_after (pid_initial N sp Kp Ki Kd) sp dt sp 1,
    pid_init_eq N sp Kp Ki Kd (by omega) hKp hKi, ?_⟩
  rw [pid_control_initial N sp Kp Ki Kd sp dt hN1]
  simp [pid_output, float_div, hdt.ne', pid_initial]

/-- Witness for C5: the test `test_pid_perfect_control`. -/
theorem pid_control_perfect_control_witness :
    ∃ pid0 pid1, pid_init 5 100 1 2 3 = .ok pid0 ∧
      pid_control pid0 100 1 = .ok (some 0, pid1) :=
  pid_control_perfect_control 5 100 1 2 3 1 (by decide) (by decide) (by norm_num)
    (by norm_num) (by norm_num)

/-- C7. Pure derivative response on the first update: for a controller constructed with
`Kp = Ki = 0` (any `Kd`, in particular any `Kd ≥ 0`; `1 ≤ N ≤ 255`), the first
`pid_control(process_value, delta_time)` with `delta_time > 0` returns
`Kd * (process_value - setpoint) / delta_time`. -/
theorem pid_control_first_derivative (N : Nat) (sp Kd pv dt : ℚ)
    (hN1 : 1 ≤ N) (hN : N ≤ 255) (hdt : 0 < dt) :
    ∃ pid0 pid1, pid_init N sp 0 0 Kd = .ok pid0 ∧
      pid_control pid0 pv dt = .ok (some (Kd * (pv - sp) / dt), pid1) := by
  refine ⟨pid_initial N sp 0 0 Kd, pid_after (pid_initial N sp 0 0 Kd) pv dt sp 1,
    pid_init_eq N sp 0 0 Kd (by omega) (le_refl _) (le_refl _), ?_⟩
  rw [pid_control_initial N sp 0 0 Kd pv dt hN1]
  simp [pid_output, float_div, hdt.ne', pid_initial, mul_div_assoc]

/-- Witness for C7: the tests `test_pid_derivative_positive_only` (value 110 gives 7.5)
and `test_pid_derivative_negative_only` (value 90 gives -7.5). -/
theorem pid_control_first_derivative_witness :
    (∃ pid0 pid1 out, pid_init 5 100 0 0 (3 / 2) = .ok pid0 ∧
      pid_control pid0 110 2 = .ok (some out, pid1) ∧ out = 15 / 2) ∧
    (∃ pid0 pid1 out, pid_init 5 100 0 0 (3 / 2) = .ok pid0 ∧
      pid_control pid0 90 2 = .ok (some out, pid1) ∧ out = -(15 / 2)) := by
  constructor
  · obtain ⟨pid0, pid1, h0, h1⟩ :=
      pid_control_first_derivative 5 100 (3 / 2) 110 2 (by decide) (by decide) (by norm_num)
    exact ⟨pid0, pid1, _, h0, h1, by norm_num⟩
  · obtain ⟨pid0, pid1, h0, h1⟩ :=
      pid_control_first_derivative 5 100 (3 / 2) 90 2 (by decide) (by decide) (by norm_num)
    exact ⟨pid0, pid1, _, h0, h1, by norm_num⟩

/-! Pure proportional response -/

/-- C6. Pure proportional response: for a controller constructed with `Ki = Kd = 0`
(any `Kp ≥ 0`, `1 ≤ N ≤ 255`), in every reachable state and for every process value and
every `delta_time > 0`, `pid_control` returns `Kp * (setpoint - process_value)`. -/
theorem pid_control_pure_proportional (N : Nat) (sp Kp pv dt : ℚ) (pid : pid_data)
    (hN1 : 1 ≤ N) (hN : N ≤ 255) (hKp : 0 ≤ Kp)
    (hr : reachable N sp Kp 0 0 pid) (hdt : 0 < dt) :
    (∃ pid0, pid_init N sp Kp 0 0 = .ok pid0) ∧
      ∃ pid1, pid_control pid pv dt = .ok (some (Kp * (sp - pv)), pid1) := by
  have hN8 : N < 2 ^ 8 := by omega
  refine ⟨⟨_, pid_init_eq N sp Kp 0 0 hN8 hKp (le_refl _)⟩, ?_⟩
  obtain ⟨hwf, e1, e2, e3, e4, _⟩ := reachable_wf N sp Kp 0 0 hN1 hN8 pid hr
  obtain ⟨h, iv, _, _, heq⟩ := pid_control_of_wf pid pv dt hwf
  refine ⟨pid_after pid pv dt h iv, ?_⟩
  rw [heq]
  simp [pid_output, float_div, hdt.ne', e1, e2, e3, e4]

/-- Witness for C6: the tests `test_pid_proportional_positive_only` (value 90 gives 15)
and `test_pid_proportional_negative_only` (value 110 gives -15). -/
theorem pid_control_pure_proportional_witness :
    (∃ pid1 out, pid_control (pid_initial 5 100 (3 / 2) 0 0) 90 1 = .ok (some out, pid1) ∧
      out = 15) ∧
    (∃ pid1 out, pid_control (pid_initial 5 100 (3 / 2) 0 0) 110 1 = .ok (some out, pid1) ∧
      out = -15) := by
  have hinit : reachable 5 100 (3 / 2) 0 0 (pid_initial 5 100 (3 / 2) 0 0) :=
    reachable.init (pid_init_eq 5 100 (3 / 2) 0 0 (by decide) (by norm_num) (by norm_num))
  constructor
  · obtain ⟨_, pid1, h1⟩ :=
      pid_control_pure_proportional 5 100 (3 / 2) 90 1 _ (by decide) (by decide)
        (by norm_num) hinit (by norm_num)
    exact ⟨pid1, _, h1, by norm_num⟩
  · obtain ⟨_, pid1, h1⟩ :=
      pid_control_pure_proportional 5 100 (3 / 2) 110 1 _ (by decide) (by decide)
        (by norm_num) hinit (by norm_num)
    exact ⟨pid1, _, h1, by norm_num⟩

/-! Integral accumulation before eviction -/

theorem window_sum_replicate (sp : ℚ) (N k : Nat) (s : ℚ × ℚ) (hk : k ≤ N) :
    window_sum sp N (List.replicate k s) = k * contribution sp s := by
  have h : (List.replicate k s).length - N = 0 := by simp; omega
  rw [window_sum, h]
  simp

/-- With `Kp = Kd = 0` the outputs of the first `k ≤ N` updates at a constant sample
`(pv, dt)` are `Ki * (j * ((setpoint - pv) * dt))` for `j = 1, ..., k`. -/
theorem pid_run_constant (N : Nat) (sp Ki pv dt : ℚ) (hN1 : 1 ≤ N) (hN : N < 2 ^ 8)
    (hdt : dt ≠ 0) :
    ∀ k, k ≤ N → ∃ pid,
      pid_run (pid_initial N sp 0 Ki 0) (List.replicate k (pv, dt))
        = .ok (((List.range k).map fun j : Nat => Ki * ((j + 1 : ℚ) * ((sp - pv) * dt))).map
            some, pid) := by
  intro k
  induction k with
  | zero => intro _; exact ⟨_, rfl⟩
  | succ k ih =>
    intro hk
    obtain ⟨pid, hrun⟩ := ih (by omega)
    obtain ⟨outs, pid2, hrun2, _, hinv, hsnoc⟩ :=
      pid_run_initial_snoc N sp 0 Ki 0 hN1 hN (List.replicate k (pv, dt)) (pv, dt)
    rw [hrun] at hrun2
    cases hrun2
    obtain ⟨e1, e2, e3, e4, _, _, _, _, _, _, hint⟩ := hinv
    have hold : oldest sp N (List.replicate k (pv, dt)) = (sp, 1) := by
      have hlt : k < N := by omega
      simp [oldest, hlt]
    have hval : pid_output pid pv dt sp 1
        = some (Ki * (((k : Nat) + 1 : ℚ) * ((sp - pv) * dt))) := by
      simp only [pid_output, float_div, hdt, if_false, Option.map_some', e1, e2, e3, e4, hint,
        window_sum_replicate sp N k (pv, dt) (by omega), contribution, Option.some_inj]
      ring
    refine ⟨pid_after pid pv dt sp 1, ?_⟩
    rw [List.replicate_succ', hsnoc, hold, List.range_succ]
    simp only [List.map_append, List.map_cons, List.map_nil, hval]

theorem pairwise_lt_map_range (c : ℚ) (hc : 0 < c) (k : Nat) :
    List.Pairwise (fun a b : ℚ => a < b)
      ((List.range k).map fun j : Nat => ((j + 1 : ℚ) * c)) := by
  rw [List.pairwise_map]
  refine List.Pairwise.imp ?_ (List.pairwise_lt_range k)
  intro a b hab
  have h : (a : ℚ) < (b : ℚ) := by exact_mod_cast hab
  nlinarith

theorem pairwise_gt_map_range (c : ℚ) (hc : c < 0) (k : Nat) :
    List.Pairwise (fun a b : ℚ => b < a)
      ((List.range k).map fun j : Nat => ((j + 1 : ℚ) * c)) := by
  rw [List.pairwise_map]
  refine List.Pairwise.imp ?_ (List.pairwise_lt_range k)
  intro a b hab
  have h : (a : ℚ) < (b : ℚ) := by exact_mod_cast hab
  nlinarith

/-- C8 (as stated, refuted). With `Ki = 0` as well (gains `0, 0, 0` are valid), the
outputs of two updates at the constant positive error `100 - 90` on a controller with
three slots are `0, 0`: not a strictly increasing sequence. -/
theorem pid_run_zero_gain_not_increasing :
    pid_init 3 100 0 0 0 = .ok (pid_initial 3 100 0 0 0) ∧
      (0 : ℚ) < 100 - 90 ∧ (0 : ℚ) < 1 ∧ 2 < 3 ∧
      (pid_run (pid_initial 3 100 0 0 0) (List.replicate 2 (90, 1))).map Prod.fst
        = .ok ([0, 0].map some) ∧
      ¬ List.Pairwise (fun a b : ℚ => a < b) [0, 0] := by
  refine ⟨pid_init_eq 3 100 0 0 0 (by decide) (le_refl _) (le_refl _), by norm_num,
    by norm_num, by decide, ?_, by simp⟩
  simp [pid_run, pid_control, pid_initial, buf_read, buf_write, float_div, uint_mod, to_uint8,
    bind, Except.bind, pure, Except.pure, Except.map]

/-- C8 (amended). Integral accumulation is strictly monotone before eviction when the
integral gain is positive: for a controller constructed with `Kp = Kd = 0`, `Ki > 0` and
`history_length` `N` (`1 ≤ N ≤ 255`), a constant process value and a constant
`delta_time > 0`, the `k` consecutive `pid_control` calls from construction, `k < N`,
all return a finite output, and the outputs are strictly increasing when the error
`setpoint - process_value` is positive and strictly decreasing when it is negative. -/
theorem pid_integral_accumulation_monotone (N k : Nat) (sp Ki pv dt : ℚ)
    (hN1 : 1 ≤ N) (hN : N ≤ 255) (hKi : 0 < Ki) (hdt : 0 < dt) (hk : k < N) :
    ∃ pid0 vals pid1, pid_init N sp 0 Ki 0 = .ok pid0 ∧
      pid_run pid0 (List.replicate k (pv, dt)) = .ok (vals.map some, pid1) ∧
      vals.length = k ∧
      (0 < sp - pv → List.Pairwise (fun a b : ℚ => a < b) vals) ∧
      (sp - pv < 0 → List.Pairwise (fun a b : ℚ => b < a) vals) := by
  have hN8 : N < 2 ^ 8 := by omega
  obtain ⟨pid1, hrun⟩ := pid_run_constant N sp Ki pv dt hN1 hN8 hdt.ne' k (by omega)
  refine ⟨pid_initial N sp 0 Ki 0, _, pid1,
    pid_init_eq N sp 0 Ki 0 hN8 (le_refl _) hKi.le, hrun, by simp, ?_, ?_⟩
  · intro he
    have hc : 0 < (sp - pv) * dt := mul_pos he hdt
    have hp := pairwise_lt_map_range ((sp - pv) * dt) hc k
    rw [List.pairwise_map] at hp ⊢
    refine List.Pairwise.imp ?_ hp
    intro a b hab
    exact mul_lt_mul_of_pos_left hab hKi
  · intro he
    have hc : (sp - pv) * dt < 0 := mul_neg_of_neg_of_pos he hdt
    have hp := pairwise_gt_map_range ((sp - pv) * dt) hc k
    rw [List.pairwise_map] at hp ⊢
    refine List.Pairwise.imp ?_ hp
    intro a b hab
    exact mul_lt_mul_of_pos_left hab hKi

/-- Witness for C8 (amended): three updates at error `10` on five slots with `Ki = 2`. -/
theorem pid_integral_accumulation_monotone_witness :
    ∃ pid0 vals pid1, pid_init 5 100 0 2 0 = .ok pid0 ∧
      pid_run pid0 (List.replicate 3 (90, 1)) = .ok (vals.map some, pid1) ∧
      vals.length = 3 ∧ List.Pairwise (fun a b : ℚ => a < b) vals := by
  obtain ⟨pid0, vals, pid1, h0, h1, h2, h3, _⟩ :=
    pid_integral_accumulation_monotone 5 3 100 2 90 1 (by decide) (by decide) (by norm_num)
      (by norm_num) (by decide)
  exact ⟨pid0, vals, pid1, h0, h1, h2, h3 (by norm_num)⟩

/-! Wraparound of the circular buffers -/

/-- After exactly `N` updates the buffers are the samples, in call order. -/
theorem run_inv_full (N : Nat) (sp Kp Ki Kd : ℚ) (ss : List (ℚ × ℚ)) (pid : pid_data)
    (hlen : ss.length = N) (hinv : run_inv N sp Kp Ki Kd ss pid) :
    pid.history = ss.map Prod.fst ∧ pid.interval = ss.map Prod.snd := by
  obtain ⟨_, _, _, _, _, _, hl1, hl2, hnew, _, _⟩ := hinv
  constructor
  · apply List.ext_getElem?
    intro i
    by_cases hi : i < N
    · have hget : ss[i]? = some ss[i] := List.getElem?_eq_getElem (by omega)
      have h := (hnew i _ hget (by omega)).1
      rw [Nat.mod_eq_of_lt hi] at h
      rw [h, List.getElem?_map, hget]
      rfl
    · rw [List.getElem?_eq_none (by omega), List.getElem?_eq_none (by simp; omega)]
  · apply List.ext_getElem?
    intro i
    by_cases hi : i < N
    · have hget : ss[i]? = some ss[i] := List.getElem?_eq_getElem (by omega)
      have h := (hnew i _ hget (by omega)).2
      rw [Nat.mod_eq_of_lt hi] at h
      rw [h, List.getElem?_map, hget]
      rfl
    · rw [List.getElem?_eq_none (by omega), List.getElem?_eq_none (by simp; omega)]

/-- C9. Circular buffer wraparound: for a controller with `history_length` `N`,
`1 ≤ N ≤ 255`, the `N` `pid_control` calls from construction with samples
`(pv_1, dt_1), ..., (pv_N, dt_N)` all return; `current`, `0` after construction, is `k`
after the first `k < N` calls (so call `k + 1` writes slot `k`: every slot is written
exactly once) and is `0` again after the `N`-th; and slot `i` then holds
`history[i] = pv_(i+1)` and `interval[i] = dt_(i+1)` for all `0 ≤ i < N`. -/
theorem pid_control_wraparound (N : Nat) (sp Kp Ki Kd : ℚ) (ss : List (ℚ × ℚ))
    (hN1 : 1 ≤ N) (hN : N ≤ 255) (hKp : 0 ≤ Kp) (hKi : 0 ≤ Ki) (hlen : ss.length = N) :
    ∃ pid0 outs pid, pid_init N sp Kp Ki Kd = .ok pid0 ∧ pid0.current = 0 ∧
      pid_run pid0 ss = .ok (outs, pid) ∧
      (∀ k, k < N → ∃ outs1 pid1, pid_run pid0 (ss.take k) = .ok (outs1, pid1) ∧
        pid1.current = k) ∧
      pid.current = 0 ∧
      pid.history = ss.map Prod.fst ∧ pid.interval = ss.map Prod.snd ∧
      ∀ i s, i < N → ss[i]? = some s →
        pid.history[i]? = some s.1 ∧ pid.interval[i]? = some s.2 := by
  have hN8 : N < 2 ^ 8 := by omega
  obtain ⟨outs, pid, hrun, _, hinv⟩ := pid_run_initial N sp Kp Ki Kd hN1 hN8 ss
  have hfull := run_inv_full N sp Kp Ki Kd ss pid hlen hinv
  refine ⟨pid_initial N sp Kp Ki Kd, outs, pid, pid_init_eq N sp Kp Ki Kd hN8 hKp hKi, rfl,
    hrun, ?_, ?_, hfull.1, hfull.2, ?_⟩
  · intro k hk
    obtain ⟨outs1, pid1, hrun1, _, hinv1⟩ := pid_run_initial N sp Kp Ki Kd hN1 hN8 (ss.take k)
    refine ⟨outs1, pid1, hrun1, ?_⟩
    obtain ⟨_, _, _, _, _, hcur, _⟩ := hinv1
    rw [hcur, List.length_take, hlen, Nat.min_eq_left hk.le, Nat.mod_eq_of_lt hk]
  · obtain ⟨_, _, _, _, _, hcur, _⟩ := hinv
    rw [hcur, hlen, Nat.mod_self]
  · intro i s _ hs
    rw [hfull.1, hfull.2, List.getElem?_map, List.getElem?_map, hs]
    exact ⟨rfl, rfl⟩

/-- Witness for C9: three samples on a controller with three slots. -/
theorem pid_control_wraparound_witness :
    ∃ pid0 outs pid, pid_init 3 100 1 2 3 = .ok pid0 ∧
      pid_run pid0 [(90, 1), (95, 2), (98, 1)] = .ok (outs, pid) ∧
      pid.current = 0 ∧ pid.history = [90, 95, 98] ∧ pid.interval = [1, 2, 1] := by
  obtain ⟨pid0, outs, pid, h0, _, h1, _, h2, h3, h4, _⟩ :=
    pid_control_wraparound 3 100 1 2 3 [(90, 1), (95, 2), (98, 1)]
      (by decide) (by decide) (by norm_num) (by norm_num) rfl
  exact ⟨pid0, outs, pid, h0, h1, h2, h3, h4⟩

/-! Construction and accessors -/

/-- C10. Construction determinism and pure accessors: for every valid input
(`N ≤ 255`, non-negative `Kp` and `Ki`, any `Kd` and so every non-negative one)
`pid_init` returns a controller on which
`get_history_length`, `get_setpoint`, `get_Kp`, `get_Ki`, `get_Kd` return `N`, `S`,
`Kp`, `Ki`, `Kd`, each leaving the controller state unchanged, so that a second call
returns the same value. -/
theorem pid_init_accessors (N : Nat) (S Kp Ki Kd : ℚ)
    (hN : N ≤ 255) (hKp : 0 ≤ Kp) (hKi : 0 ≤ Ki) :
    ∃ pid, pid_init N S Kp Ki Kd = .ok pid ∧
      get_history_length pid = (N, pid) ∧ get_setpoint pid = (S, pid) ∧
      get_Kp pid = (Kp, pid) ∧ get_Ki pid = (Ki, pid) ∧ get_Kd pid = (Kd, pid) ∧
      (get_history_length (get_history_length pid).2).1 = (get_history_length pid).1 ∧
      (get_setpoint (get_setpoint pid).2).1 = (get_setpoint pid).1 ∧
      (get_Kp (get_Kp pid).2).1 = (get_Kp pid).1 ∧
      (get_Ki (get_Ki pid).2).1 = (get_Ki pid).1 ∧
      (get_Kd (get_Kd pid).2).1 = (get_Kd pid).1 :=
  ⟨pid_initial N S Kp Ki Kd, pid_init_eq N S Kp Ki Kd (by omega) hKp hKi,
    rfl, rfl, rfl, rfl, rfl, rfl, rfl, rfl, rfl, rfl⟩

/-- Witness for C10: the test `test_pid_init_values`. -/
theorem pid_init_accessors_witness :
    ∃ pid, pid_init 5 100 1 2 3 = .ok pid ∧
      get_history_length pid = (5, pid) ∧ get_setpoint pid = (100, pid) ∧
      get_Kp pid = (1, pid) ∧ get_Ki pid = (2, pid) ∧ get_Kd pid = (3, pid) := by
  obtain ⟨pid, h0, h1, h2, h3, h4, h5, _⟩ :=
    pid_init_accessors 5 100 1 2 3 (by decide) (by norm_num) (by norm_num)
  exact ⟨pid, h0, h1, h2, h3, h4, h5⟩

/-! The frame of an update -/

/-- A returning `pid_control` call read both buffers at `current`, had a nonzero
modulus, and produced the closed-form output and state. -/
theorem pid_control_ok (pid pid1 : pid_data) (pv dt : ℚ) (out : Option ℚ)
    (hc : pid_control pid pv dt = .ok (out, pid1)) :
    ∃ h iv, pid.history[pid.current]? = some h ∧ pid.interval[pid.current]? = some iv ∧
      pid.history_length ≠ 0 ∧ out = pid_output pid pv dt h iv ∧
      pid1 = pid_after pid pv dt h iv := by
  cases hh : pid.history[pid.current]? with
  | none => simp [pid_control, buf_read, hh, bind, Except.bind] at hc
  | some h =>
    cases hi : pid.interval[pid.current]? with
    | none => simp [pid_control, buf_read, hh, hi, bind, Except.bind] at hc
    | some iv =>
      by_cases hN : pid.history_length = 0
      · have h1 := lt_length_of_getElem? hh
        have h2 := lt_length_of_getElem? hi
        simp [pid_control, buf_read, buf_write, uint_mod, hh, hi, hN, h1, h2, bind,
          Except.bind] at hc
      · rw [pid_control_eq pid pv dt h iv hh hi hN] at hc
        cases hc
        exact ⟨h, iv, rfl, rfl, hN, rfl, rfl⟩

/-- Every reachable state carries the constructor's parameters. -/
theorem reachable_params (N : Nat) (sp Kp Ki Kd : ℚ) (hN : N < 2 ^ 8)
    (pid : pid_data) (hr : reachable N sp Kp Ki Kd pid) :
    pid.setpoint = sp ∧ pid.Kp = Kp ∧ pid.Ki = Ki ∧ pid.Kd = Kd ∧ pid.history_length = N := by
  induction hr with
  | init h0 =>
    by_cases hKp : 0 ≤ Kp
    · by_cases hKi : 0 ≤ Ki
      · rw [pid_init_eq N sp Kp Ki Kd hN hKp hKi] at h0
        cases h0
        exact ⟨rfl, rfl, rfl, rfl, rfl⟩
      · simp [pid_init, c_assert, hKp, hKi, bind, Except.bind] at h0
    · simp [pid_init, c_assert, hKp, bind, Except.bind] at h0
  | @step p p1 pv dt out _ hc ih =>
    obtain ⟨h, iv, _, _, _, _, hp1⟩ := pid_control_ok p p1 pv dt out hc
    subst hp1
    exact ih

/-- C11. Frame of update: in a state with `current < history_length` (both buffers of
`history_length ≤ 255` slots), `pid_control(pv, dt)` returns and changes only
`integral`, `current`, `history[t1]` and `interval[t1]`, `t1` the `current` before the
call: it sets `history[t1] = pv`, `interval[t1] = dt` and
`current = (t1 + 1) mod history_length`; `setpoint`, `Kp`, `Ki`, `Kd`, `history_length`
and every other slot of both buffers are unchanged.  Hence the five accessors return
the constructor's values in every state reached from `pid_init` by any number of
updates. -/
theorem pid_control_frame (pid : pid_data) (pv dt : ℚ) (hwf : pid_wf pid) :
    (∃ out pid1, pid_control pid pv dt = .ok (out, pid1) ∧
      pid1.setpoint = pid.setpoint ∧ pid1.Kp = pid.Kp ∧ pid1.Ki = pid.Ki ∧
      pid1.Kd = pid.Kd ∧ pid1.history_length = pid.history_length ∧
      pid1.current = (pid.current + 1) % pid.history_length ∧
      pid1.history[pid.current]? = some pv ∧ pid1.interval[pid.current]? = some dt ∧
      pid1.history.length = pid.history.length ∧
      pid1.interval.length = pid.interval.length ∧
      ∀ i, i ≠ pid.current →
        pid1.history[i]? = pid.history[i]? ∧ pid1.interval[i]? = pid.interval[i]?) ∧
    ∀ (N : Nat) (S Kp Ki Kd : ℚ) (p : pid_data), N ≤ 255 → reachable N S Kp Ki Kd p →
      get_history_length p = (N, p) ∧ get_setpoint p = (S, p) ∧ get_Kp p = (Kp, p) ∧
      get_Ki p = (Ki, p) ∧ get_Kd p = (Kd, p) := by
  constructor
  · obtain ⟨h, iv, _, _, heq⟩ := pid_control_of_wf pid pv dt hwf
    obtain ⟨h1, h2, h3, h4⟩ := hwf
    refine ⟨pid_output pid pv dt h iv, pid_after pid pv dt h iv, heq, rfl, rfl, rfl, rfl, rfl,
      next_index pid.current pid.history_length h2 h1, ?_, ?_, ?_, ?_, ?_⟩
    · exact List.getElem?_set_self (by omega)
    · exact List.getElem?_set_self (by omega)
    · simp [pid_after]
    · simp [pid_after]
    · intro i hi
      exact ⟨List.getElem?_set_ne (Ne.symm hi), List.getElem?_set_ne (Ne.symm hi)⟩
  · intro N S Kp Ki Kd p hN hr
    obtain ⟨e1, e2, e3, e4, e5⟩ := reachable_params N S Kp Ki Kd (by omega) p hr
    simp [get_history_length, get_setpoint, get_Kp, get_Ki, get_Kd, e1, e2, e3, e4, e5]

/-- Witness for C11: the second update of a run on three slots. -/
theorem pid_control_frame_witness :
    ∃ out pid1, pid_control
        { setpoint := 100, Kp := 1, Ki := 2, Kd := 3, integral := 8, current := 1,
          history_length := 3, interval := [2, 1, 1], history := [96, 100, 100] } 90 2
        = .ok (out, pid1) ∧
      pid1.setpoint = 100 ∧ pid1.Kp = 1 ∧ pid1.Ki = 2 ∧ pid1.Kd = 3 ∧
      pid1.history_length = 3 ∧ pid1.current = 2 ∧
      pid1.history[1]? = some 90 ∧ pid1.interval[1]? = some 2 := by
  obtain ⟨out, pid1, h0, h1, h2, h3, h4, h5, h6, h7, h8, _⟩ :=
    (pid_control_frame
      { setpoint := 100, Kp := 1, Ki := 2, Kd := 3, integral := 8, current := 1,
        history_length := 3, interval := [2, 1, 1], history := [96, 100, 100] } 90 2
      ⟨by decide, by decide, rfl, rfl⟩).1
  exact ⟨out, pid1, h0, h1, h2, h3, h4, h5, h6, h7, h8⟩

/-! Definedness of an update -/

/-- C12. Update is defined exactly when `delta_time` is nonzero: in every state
reachable from `pid_init` with `1 ≤ history_length ≤ 255`, `pid_control(pv, dt)` takes
no error branch (both buffers are read and written in range at `current`, the modulus
`history_length` is nonzero) and, if `dt ≠ 0`, returns a finite output; for `dt = 0`
nothing stops the call before the quotient of the derivative term, which is taken with
a zero divisor, and the output is not a finite number. -/
theorem pid_control_defined_iff (N : Nat) (sp Kp Ki Kd pv dt : ℚ) (pid : pid_data)
    (hN1 : 1 ≤ N) (hN : N ≤ 255) (hr : reachable N sp Kp Ki Kd pid) :
    (∃ h iv, buf_read pid.history pid.current = .ok h ∧
      buf_read pid.interval pid.current = .ok iv ∧
      (∃ b, buf_write pid.history pid.current pv = .ok b) ∧
      (∃ b, buf_write pid.interval pid.current dt = .ok b) ∧
      (∃ c, uint_mod (to_uint8 (pid.current + 1)) pid.history_length = .ok c) ∧
      pid_derivative pid pv dt = .ok (float_div (pv - h) dt)) ∧
    (dt ≠ 0 → ∃ out pid1, pid_control pid pv dt = .ok (some out, pid1)) ∧
    (dt = 0 → (∃ pid1, pid_control pid pv dt = .ok (none, pid1)) ∧
      pid_derivative pid pv dt = .ok none) := by
  obtain ⟨hwf, _⟩ := reachable_wf N sp Kp Ki Kd hN1 (by omega) pid hr
  obtain ⟨h, iv, hh, hi, heq⟩ := pid_control_of_wf pid pv dt hwf
  obtain ⟨_, h2, h3, h4⟩ := hwf
  have hd : pid_derivative pid pv dt = .ok (float_div (pv - h) dt) := by
    simp [pid_derivative, buf_read_of_getElem? hh, bind, Except.bind, pure, Except.pure]
  refine ⟨⟨h, iv, buf_read_of_getElem? hh, buf_read_of_getElem? hi, ?_, ?_, ?_, hd⟩, ?_, ?_⟩
  · exact ⟨pid.history.set pid.current pv, by simp [buf_write, h3, h2]⟩
  · exact ⟨pid.interval.set pid.current dt, by simp [buf_write, h4, h2]⟩
  · have hz : pid.history_length ≠ 0 := by omega
    exact ⟨to_uint8 (pid.current + 1) % pid.history_length, by simp [uint_mod, hz]⟩
  · intro hdt
    refine ⟨pid.Kp * (pid.setpoint - pv)
      + pid.Ki * (pid.integral - (pid.setpoint - h) * iv + (pid.setpoint - pv) * dt)
      + pid.Kd * ((pv - h) / dt), pid_after pid pv dt h iv, ?_⟩
    rw [heq]
    simp [pid_output, float_div, hdt]
  · intro hdt
    refine ⟨⟨pid_after pid pv dt h iv, ?_⟩, ?_⟩
    · rw [heq]
      simp [pid_output, float_div, hdt]
    · rw [hd]
      simp [float_div, hdt]

/-- Witness for C12: the fresh controller of the tests, at `dt = 2` and at `dt = 0`. -/
theorem pid_control_defined_iff_witness :
    (∃ out pid1, pid_control (pid_initial 5 100 1 2 3) 90 2 = .ok (some out, pid1)) ∧
    (∃ pid1, pid_control (pid_initial 5 100 1 2 3) 90 0 = .ok (none, pid1)) := by
  have hinit : reachable 5 100 1 2 3 (pid_initial 5 100 1 2 3) :=
    reachable.init (pid_init_eq 5 100 1 2 3 (by decide) (by norm_num) (by norm_num))
  exact ⟨(pid_control_defined_iff 5 100 1 2 3 90 2 _ (by decide) (by decide) hinit).2.1
      (by norm_num),
    ((pid_control_defined_iff 5 100 1 2 3 90 0 _ (by decide) (by decide) hinit).2.2 rfl).1⟩

/-! Destruction -/

/-- C13. Destruction invalidation: for every valid construction (`N ≤ 255`,
non-negative `Kp` and `Ki`) `pid_init` returns a controller, and `pid_free(&pid)` on the
handle obtained returns and leaves the caller's handle null (`none`), so the destroyed
controller can no longer be reached through it. -/
theorem pid_free_nulls_handle (N : Nat) (sp Kp Ki Kd : ℚ)
    (hN : N ≤ 255) (hKp : 0 ≤ Kp) (hKi : 0 ≤ Ki) :
    ∃ pid, pid_init N sp Kp Ki Kd = .ok pid ∧ pid_free (some pid) = .ok none ∧
      (pid_init N sp Kp Ki Kd >>= fun p => pid_free (some p)) = .ok none := by
  refine ⟨pid_initial N sp Kp Ki Kd, pid_init_eq N sp Kp Ki Kd (by omega) hKp hKi, rfl, ?_⟩
  rw [pid_init_eq N sp Kp Ki Kd (by omega) hKp hKi]
  rfl

/-- Witness for C13: the test `test_pid_free`. -/
theorem pid_free_nulls_handle_witness :
    ∃ pid, pid_init 5 100 1 1 1 = .ok pid ∧ pid_free (some pid) = .ok none := by
  obtain ⟨pid, h0, h1, _⟩ :=
    pid_free_nulls_handle 5 100 1 1 1 (by decide) (by norm_num) (by norm_num)
  exact ⟨pid, h0, h1⟩

/-! Consistency of the integral with the buffers -/

theorem getD_set_self (l : List ℚ) (c : Nat) (x : ℚ) (hc : c < l.length) :
    (l.set c x).getD c 0 = x := by
  rw [List.getD_eq_getElem?_getD, List.getElem?_set_self hc]
  rfl

theorem getD_set_ne (l : List ℚ) (c i : Nat) (x : ℚ) (hne : c ≠ i) :
    (l.set c x).getD i 0 = l.getD i 0 := by
  rw [List.getD_eq_getElem?_getD, List.getD_eq_getElem?_getD, List.getElem?_set_ne hne]

theorem getD_of_getElem? (l : List ℚ) (c : Nat) (x : ℚ) (h : l[c]? = some x) :
    l.getD c 0 = x := by
  rw [List.getD_eq_getElem?_getD, h]
  rfl

theorem buffer_sum_initial (N : Nat) (sp Kp Ki Kd : ℚ) :
    buffer_sum (pid_initial N sp Kp Ki Kd) = 0 := by
  apply Finset.sum_eq_zero
  intro i hi
  have hlt : i < N := Finset.mem_range.mp hi
  have hget : (List.replicate N sp).getD i 0 = sp :=
    getD_of_getElem? _ i sp (by simp [List.getElem?_replicate, hlt])
  show (sp - (List.replicate N sp).getD i 0) * (List.replicate N (1 : ℚ)).getD i 0 = 0
  rw [hget, sub_self, zero_mul]

/-- One update changes the sum over the slots by the term it replaces in slot
`current`. -/
theorem buffer_sum_after (pid : pid_data) (pv dt h iv : ℚ) (hwf : pid_wf pid)
    (hh : pid.history[pid.current]? = some h) (hi : pid.interval[pid.current]? = some iv) :
    buffer_sum (pid_after pid pv dt h iv)
      = buffer_sum pid - (pid.setpoint - h) * iv + (pid.setpoint - pv) * dt := by
  obtain ⟨_, h2, h3, h4⟩ := hwf
  have hmem : pid.current ∈ Finset.range pid.history_length := Finset.mem_range.mpr h2
  have hnew := Finset.add_sum_erase (Finset.range pid.history_length)
    (fun i => (pid.setpoint - (pid.history.set pid.current pv).getD i 0)
      * (pid.interval.set pid.current dt).getD i 0) hmem
  have hold := Finset.add_sum_erase (Finset.range pid.history_length)
    (fun i => (pid.setpoint - pid.history.getD i 0) * pid.interval.getD i 0) hmem
  have hrest : ∑ i ∈ (Finset.range pid.history_length).erase pid.current,
        (pid.setpoint - (pid.history.set pid.current pv).getD i 0)
          * (pid.interval.set pid.current dt).getD i 0
      = ∑ i ∈ (Finset.range pid.history_length).erase pid.current,
        (pid.setpoint - pid.history.getD i 0) * pid.interval.getD i 0 := by
    apply Finset.sum_congr rfl
    intro i hi1
    have hne : pid.current ≠ i := (Finset.ne_of_mem_erase hi1).symm
    rw [getD_set_ne _ _ _ _ hne, getD_set_ne _ _ _ _ hne]
  simp only [getD_set_self pid.history pid.current pv (by omega),
    getD_set_self pid.interval pid.current dt (by omega)] at hnew
  simp only [getD_of_getElem? _ _ _ hh, getD_of_getElem? _ _ _ hi] at hold
  show ∑ i ∈ Finset.range pid.history_length,
      (pid.setpoint - (pid.history.set pid.current pv).getD i 0)
        * (pid.interval.set pid.current dt).getD i 0
    = buffer_sum pid - (pid.setpoint - h) * iv + (pid.setpoint - pv) * dt
  rw [buffer_sum, ← hnew, ← hold, hrest]
  ring

/-- An update of a well-formed state whose integral agrees with the buffers leaves a
state whose integral agrees with the buffers. -/
theorem buffer_sum_preserved (pid pid1 : pid_data) (pv dt : ℚ) (out : Option ℚ)
    (hwf : pid_wf pid) (hint : pid.integral = buffer_sum pid)
    (hc : pid_control pid pv dt = .ok (out, pid1)) :
    pid1.integral = buffer_sum pid1 := by
  obtain ⟨h, iv, hh, hi, _, _, hp1⟩ := pid_control_ok pid pid1 pv dt out hc
  subst hp1
  rw [buffer_sum_after pid pv dt h iv hwf hh hi, ← hint]
  rfl

theorem reachable_init_ok (N : Nat) (sp Kp Ki Kd : ℚ) (pid : pid_data)
    (hr : reachable N sp Kp Ki Kd pid) : ∃ pid0, pid_init N sp Kp Ki Kd = .ok pid0 := by
  induction hr with
  | init h0 => exact ⟨_, h0⟩
  | step _ _ ih => exact ih

theorem reachable_buffer_sum (N : Nat) (sp Kp Ki Kd : ℚ) (hN1 : 1 ≤ N) (hN : N < 2 ^ 8)
    (pid : pid_data) (hr : reachable N sp Kp Ki Kd pid) :
    pid.integral = buffer_sum pid := by
  induction hr with
  | init h0 =>
    by_cases hKp : 0 ≤ Kp
    · by_cases hKi : 0 ≤ Ki
      · rw [pid_init_eq N sp Kp Ki Kd hN hKp hKi] at h0
        cases h0
        rw [buffer_sum_initial]
        rfl
      · simp [pid_init, c_assert, hKp, hKi, bind, Except.bind] at h0
    · simp [pid_init, c_assert, hKp, bind, Except.bind] at h0
  | @step p p1 pv dt out hp hc ih =>
    exact buffer_sum_preserved p p1 pv dt out
      (reachable_wf N sp Kp Ki Kd hN1 hN p hp).1 ih hc

/-- C14. Integral/buffer consistency invariant: in every state reachable from
`pid_init` (`1 ≤ N ≤ 255`) by any sequence of `pid_control` calls (with any
`delta_time`, zero included), the stored integral equals the sum over all `N` slots `i`
of `(setpoint - history[i]) * interval[i]`; it holds for the state `pid_init` returns
and every further update returns a state in which it holds again. -/
theorem pid_integral_buffer_consistent (N : Nat) (sp Kp Ki Kd : ℚ) (pid : pid_data)
    (hN1 : 1 ≤ N) (hN : N ≤ 255) (hr : reachable N sp Kp Ki Kd pid) :
    (∃ pid0, pid_init N sp Kp Ki Kd = .ok pid0 ∧
      pid0.integral
        = ∑ i ∈ Finset.range N, (sp - pid0.history.getD i 0) * pid0.interval.getD i 0) ∧
    pid.integral = ∑ i ∈ Finset.range N, (sp - pid.history.getD i 0) * pid.interval.getD i 0 ∧
    ∀ pv dt, ∃ out pid1, pid_control pid pv dt = .ok (out, pid1) ∧
      pid1.integral
        = ∑ i ∈ Finset.range N, (sp - pid1.history.getD i 0) * pid1.interval.getD i 0 := by
  have hN8 : N < 2 ^ 8 := by omega
  have key : ∀ p, reachable N sp Kp Ki Kd p →
      p.integral = ∑ i ∈ Finset.range N, (sp - p.history.getD i 0) * p.interval.getD i 0 := by
    intro p hp
    obtain ⟨e1, _, _, _, e5⟩ := reachable_params N sp Kp Ki Kd hN8 p hp
    rw [reachable_buffer_sum N sp Kp Ki Kd hN1 hN8 p hp, buffer_sum, e1, e5]
  obtain ⟨pid0, h0⟩ := reachable_init_ok N sp Kp Ki Kd pid hr
  refine ⟨⟨pid0, h0, key pid0 (reachable.init h0)⟩, key pid hr, ?_⟩
  intro pv dt
  obtain ⟨h, iv, _, _, heq⟩ :=
    pid_control_of_wf pid pv dt (reachable_wf N sp Kp Ki Kd hN1 hN8 pid hr).1
  exact ⟨pid_output pid pv dt h iv, pid_after pid pv dt h iv, heq,
    key _ (reachable.step hr heq)⟩

/-- Witness for C14: the state after one update `(96, 2)` on three slots. -/
theorem pid_integral_buffer_consistent_witness :
    (pid_after (pid_initial 3 100 1 2 3) 96 2 100 1).integral
      = ∑ i ∈ Finset.range 3,
          (100 - (pid_after (pid_initial 3 100 1 2 3) 96 2 100 1).history.getD i 0)
            * (pid_after (pid_initial 3 100 1 2 3) 96 2 100 1).interval.getD i 0 :=
  (pid_integral_buffer_consistent 3 100 1 2 3 _ (by decide) (by decide)
    (reachable.step
      (reachable.init (pid_init_eq 3 100 1 2 3 (by decide) (by norm_num) (by norm_num)))
      (pid_control_initial 3 100 1 2 3 96 2 (by decide)))).2.1

/-! The index -/

/-- C15. Index invariant: for `1 ≤ N ≤ 255`, every state reachable from `pid_init` by
any sequence of `pid_control` calls satisfies `0 ≤ current < N`; in particular
`current ≤ 254`, the 8-bit increment `tm1++` does not wrap, and the next update returns
with `current = (old current + 1) mod N` over the unbounded integers as well as with
the increment taken modulo `2^8`. -/
theorem pid_current_in_range (N : Nat) (sp Kp Ki Kd : ℚ) (pid : pid_data)
    (hN1 : 1 ≤ N) (hN : N ≤ 255) (hr : reachable N sp Kp Ki Kd pid) :
    0 ≤ pid.current ∧ pid.current < N ∧ pid.current ≤ 254 ∧
      to_uint8 (pid.current + 1) = pid.current + 1 ∧
      ∀ pv dt, ∃ out pid1, pid_control pid pv dt = .ok (out, pid1) ∧
        pid1.current = (pid.current + 1) % N ∧
        pid1.current = (pid.current + 1) % 2 ^ 8 % N ∧ pid1.current < N := by
  have hN8 : N < 2 ^ 8 := by omega
  obtain ⟨hwf, _, _, _, _, e5⟩ := reachable_wf N sp Kp Ki Kd hN1 hN8 pid hr
  have hlt : pid.current < N := by rw [← e5]; exact hwf.2.1
  have hu : to_uint8 (pid.current + 1) = pid.current + 1 := Nat.mod_eq_of_lt (by omega)
  refine ⟨Nat.zero_le _, hlt, by omega, hu, ?_⟩
  intro pv dt
  obtain ⟨h, iv, _, _, heq⟩ := pid_control_of_wf pid pv dt hwf
  have hcur : (pid_after pid pv dt h iv).current = (pid.current + 1) % N := by
    show to_uint8 (pid.current + 1) % pid.history_length = (pid.current + 1) % N
    rw [hu, e5]
  refine ⟨pid_output pid pv dt h iv, pid_after pid pv dt h iv, heq, hcur, ?_, ?_⟩
  · rw [hcur]
    have : (pid.current + 1) % 2 ^ 8 = pid.current + 1 := hu
    rw [this]
  · rw [hcur]
    exact Nat.mod_lt _ (by omega)

/-- Witness for C15: the fresh controller with the largest window, 255 slots. -/
theorem pid_current_in_range_witness :
    (pid_initial 255 100 1 2 3).current < 255 ∧
      to_uint8 ((pid_initial 255 100 1 2 3).current + 1)
        = (pid_initial 255 100 1 2 3).current + 1 := by
  obtain ⟨_, h1, _, h2, _⟩ :=
    pid_current_in_range 255 100 1 2 3 (pid_initial 255 100 1 2 3) (by decide) (by decide)
      (reachable.init (pid_init_eq 255 100 1 2 3 (by decide) (by norm_num) (by norm_num)))
  exact ⟨h1, h2⟩

/-! The initial state -/

/-- C16. Initial state: for every `history_length` `N` in `0..255` and non-negative
`Kp`, `Ki` (any `Kd`), `pid_init` terminates, the loop counter never wrapping (`i + 1`
fits in 8 bits for every `i < N`, and the loop returns the same state for every bound
on its length above `N`), and returns a state with `current = 0`, `integral = 0`,
`history[i] = setpoint` and `interval[i] = 1` for every `i < N`, both buffers having
exactly `N` entries. -/
theorem pid_init_state (N : Nat) (sp Kp Ki Kd : ℚ)
    (hN : N ≤ 255) (hKp : 0 ≤ Kp) (hKi : 0 ≤ Ki) :
    ∃ pid, pid_init N sp Kp Ki Kd = .ok pid ∧
      pid.current = 0 ∧ pid.integral = 0 ∧ pid.history_length = N ∧
      pid.history.length = N ∧ pid.interval.length = N ∧
      (∀ i, i < N → pid.history[i]? = some sp ∧ pid.interval[i]? = some 1) ∧
      (∀ i, i < N → to_uint8 (i + 1) = i + 1) ∧
      ∀ fuel, N < fuel →
        pid_init_loop fuel
          { setpoint := sp, Kp := Kp, Ki := Ki, Kd := Kd, integral := 0, current := 0,
            history_length := N, interval := malloc_floats N, history := malloc_floats N } 0
          = .ok pid := by
  have hN8 : N < 2 ^ 8 := by omega
  refine ⟨pid_initial N sp Kp Ki Kd, pid_init_eq N sp Kp Ki Kd hN8 hKp hKi, rfl, rfl, rfl,
    by simp [pid_initial], by simp [pid_initial], ?_, ?_, ?_⟩
  · intro i hi
    simp [pid_initial, List.getElem?_replicate, hi]
  · intro i hi
    exact Nat.mod_eq_of_lt (by omega)
  · intro fuel hfuel
    have h := pid_init_loop_eq N sp Kp Ki Kd hN8 fuel 0 (Nat.zero_le _) (by omega)
    simpa [malloc_floats] using h

/-- Witness for C16: the largest window, 255 slots. -/
theorem pid_init_state_witness :
    ∃ pid, pid_init 255 100 1 2 3 = .ok pid ∧ pid.current = 0 ∧ pid.integral = 0 ∧
      pid.history.length = 255 ∧ pid.interval.length = 255 ∧
      pid.history[254]? = some 100 ∧ pid.interval[254]? = some 1 := by
  obtain ⟨pid, h0, h1, h2, _, h3, h4, h5, _⟩ :=
    pid_init_state 255 100 1 2 3 (by decide) (by norm_num) (by norm_num)
  exact ⟨pid, h0, h1, h2, h3, h4, (h5 254 (by decide)).1, (h5 254 (by decide)).2⟩

/-! A window of length zero -/

theorem pid_control_empty (sp Kp Ki Kd pv dt : ℚ) :
    pid_control (pid_initial 0 sp Kp Ki Kd) pv dt = .error .index_out_of_range := by
  simp [pid_control, pid_initial, buf_read, bind, Except.bind]

theorem reachable_empty (sp Kp Ki Kd : ℚ) (hKp : 0 ≤ Kp) (hKi : 0 ≤ Ki) (p : pid_data)
    (hr : reachable 0 sp Kp Ki Kd p) : p = pid_initial 0 sp Kp Ki Kd := by
  induction hr with
  | init h0 =>
    rw [pid_init_eq 0 sp Kp Ki Kd (by decide) hKp hKi] at h0
    cases h0
    rfl
  | @step q q1 pv dt out _ hc ih =>
    rw [ih, pid_control_empty] at hc
    cases hc

/-- C19. `history_length` is not validated: `pid_init(0, setpoint, Kp, Ki, Kd)` with
non-negative gains returns a controller with empty buffers and
`current = 0 = history_length`, so `current < history_length` fails; and every
`pid_control` call on a controller obtained this way ends in an error: the first read,
of slot 0 of an empty buffer, is out of range, and the advance of `current` would take
the remainder by zero. -/
theorem pid_init_zero_length (sp Kp Ki Kd : ℚ) (hKp : 0 ≤ Kp) (hKi : 0 ≤ Ki) :
    ∃ pid, pid_init 0 sp Kp Ki Kd = .ok pid ∧
      pid.history = [] ∧ pid.interval = [] ∧ pid.current = 0 ∧ pid.history_length = 0 ∧
      ¬ pid.current < pid.history_length ∧
      ∀ p, reachable 0 sp Kp Ki Kd p → ∀ pv dt,
        pid_control p pv dt = .error .index_out_of_range ∧
        buf_read p.history p.current = .error .index_out_of_range ∧
        buf_read p.interval p.current = .error .index_out_of_range ∧
        uint_mod (to_uint8 (p.current + 1)) p.history_length = .error .modulo_by_zero := by
  refine ⟨pid_initial 0 sp Kp Ki Kd, pid_init_eq 0 sp Kp Ki Kd (by decide) hKp hKi, rfl, rfl,
    rfl, rfl, by simp [pid_initial], ?_⟩
  intro p hp pv dt
  rw [reachable_empty sp Kp Ki Kd hKp hKi p hp]
  exact ⟨pid_control_empty sp Kp Ki Kd pv dt, rfl, rfl, rfl⟩

/-- Witness for C19: setpoint 100 and gains 1, 2, 3. -/
theorem pid_init_zero_length_witness :
    pid_init 0 100 1 2 3 = .ok (pid_initial 0 100 1 2 3) ∧
      pid_control (pid_initial 0 100 1 2 3) 90 1 = .error .index_out_of_range := by
  obtain ⟨pid, h0, _, _, _, _, _, h1⟩ :=
    pid_init_zero_length 100 1 2 3 (by norm_num) (by norm_num)
  have hr := reachable.init h0
  rw [pid_init_eq 0 100 1 2 3 (by decide) (by norm_num) (by norm_num)] at h0
  cases h0
  exact ⟨pid_init_eq 0 100 1 2 3 (by decide) (by norm_num) (by norm_num), (h1 _ hr 90 1).1⟩

/-! The sample the derivative is taken against -/

theorem oldest_of_lt (sp : ℚ) (N : Nat) (ss : List (ℚ × ℚ)) (h : ss.length < N) :
    oldest sp N ss = (sp, 1) := by
  simp [oldest, h]

theorem oldest_of_le (sp : ℚ) (N : Nat) (ss : List (ℚ × ℚ)) (o : ℚ × ℚ)
    (h : N ≤ ss.length) (ho : ss[ss.length - N]? = some o) : oldest sp N ss = o := by
  have hlt : ¬ ss.length < N := by omega
  rw [oldest, if_neg hlt, List.getD_eq_getElem?_getD, ho]
  rfl

/-- The update that follows the samples `ss` on a fresh controller, in closed form,
with its derivative. -/
theorem pid_derivative_after_run (N : Nat) (sp Kp Ki Kd : ℚ) (hN1 : 1 ≤ N) (hN : N < 2 ^ 8)
    (ss : List (ℚ × ℚ)) (pv dt : ℚ) :
    ∃ outs pid, pid_run (pid_initial N sp Kp Ki Kd) ss = .ok (outs, pid) ∧
      pid_derivative pid pv dt = .ok (float_div (pv - (oldest sp N ss).1) dt) ∧
      ∃ pid1, pid_control pid pv dt
        = .ok ((float_div (pv - (oldest sp N ss).1) dt).map fun d =>
            Kp * (sp - pv) + Ki * pid1.integral + Kd * d, pid1) := by
  obtain ⟨outs, pid, hrun, _, hinv⟩ := pid_run_initial N sp Kp Ki Kd hN1 hN ss
  obtain ⟨hh, hi⟩ := run_inv_oldest N sp Kp Ki Kd ss pid hN1 hinv
  obtain ⟨e1, e2, e3, e4, e5, _⟩ := hinv
  refine ⟨outs, pid, hrun, ?_, pid_after pid pv dt (oldest sp N ss).1 (oldest sp N ss).2, ?_⟩
  · simp [pid_derivative, buf_read_of_getElem? hh, bind, Except.bind, pure, Except.pure]
  · rw [pid_control_eq pid pv dt _ _ hh hi (by omega)]
    simp [pid_output, pid_after, e1, e2, e3, e4]

/-- C17. The derivative is taken against the evicted (oldest) sample, not the previous
one.  For a controller with `history_length` `N`, `1 ≤ N ≤ 255`, and updates
`(pv_1, dt_1), (pv_2, dt_2), ...`, the `n`-th `pid_control` call (the one that follows
the `n - 1` samples `ss`, with `dt_n ≠ 0`) computes the derivative
`(pv_n - pv_(n-N)) / dt_n` when `n > N` and `(pv_n - setpoint) / dt_n` when `n ≤ N`, and
its output is `Kp * error + Ki * integral + Kd * derivative` with that derivative.  The
derivative is the consecutive difference `(pv_n - pv_(n-1)) / dt_n` for all samples and
all `n ≥ 2` exactly when `N = 1`. -/
theorem pid_derivative_against_oldest (N : Nat) (sp Kp Ki Kd : ℚ)
    (hN1 : 1 ≤ N) (hN : N ≤ 255) (hKp : 0 ≤ Kp) (hKi : 0 ≤ Ki) :
    (∃ pid0, pid_init N sp Kp Ki Kd = .ok pid0 ∧
      ∀ (ss : List (ℚ × ℚ)) (pv dt : ℚ), dt ≠ 0 →
        ∃ outs pid d pid1, pid_run pid0 ss = .ok (outs, pid) ∧
          pid_derivative pid pv dt = .ok (some d) ∧
          pid_control pid pv dt
            = .ok (some (Kp * (sp - pv) + Ki * pid1.integral + Kd * d), pid1) ∧
          (ss.length + 1 ≤ N → d = (pv - sp) / dt) ∧
          (N < ss.length + 1 → ∀ o, ss[ss.length - N]? = some o → d = (pv - o.1) / dt)) ∧
    ((∀ (ss : List (ℚ × ℚ)) (pv dt : ℚ) (p : ℚ × ℚ) (outs : List (Option ℚ)) (pid : pid_data),
        dt ≠ 0 → ss.getLast? = some p →
        pid_run (pid_initial N sp Kp Ki Kd) ss = .ok (outs, pid) →
        pid_derivative pid pv dt = .ok (some ((pv - p.1) / dt))) ↔ N = 1) := by
  have hN8 : N < 2 ^ 8 := by omega
  refine ⟨⟨pid_initial N sp Kp Ki Kd, pid_init_eq N sp Kp Ki Kd hN8 hKp hKi, ?_⟩, ?_, ?_⟩
  · intro ss pv dt hdt
    obtain ⟨outs, pid, hrun, hd, pid1, hc⟩ :=
      pid_derivative_after_run N sp Kp Ki Kd hN1 hN8 ss pv dt
    refine ⟨outs, pid, (pv - (oldest sp N ss).1) / dt, pid1, hrun, ?_, ?_, ?_, ?_⟩
    · rw [hd]; simp [float_div, hdt]
    · rw [hc]; simp [float_div, hdt]
    · intro hlt
      rw [oldest_of_lt sp N ss (by omega)]
    · intro hlt o ho
      rw [oldest_of_le sp N ss o (by omega) ho]
  · intro hall
    by_contra hne
    have h2 : 2 ≤ N := by omega
    obtain ⟨outs, pid, hrun, hd, _⟩ :=
      pid_derivative_after_run N sp Kp Ki Kd hN1 hN8 [(sp + 1, 1)] sp 1
    have h := hall [(sp + 1, 1)] sp 1 (sp + 1, 1) outs pid one_ne_zero rfl hrun
    rw [hd, oldest_of_lt sp N _ (by simpa using h2)] at h
    simp [float_div] at h
  · intro h1 ss pv dt p outs pid hdt hlast hrun
    subst h1
    obtain ⟨outs1, pid1, hrun1, hd, _⟩ :=
      pid_derivative_after_run 1 sp Kp Ki Kd hN1 hN8 ss pv dt
    rw [hrun] at hrun1
    cases hrun1
    have hlen : 1 ≤ ss.length := by
      cases ss with
      | nil => simp at hlast
      | cons a l => simp
    have ho : ss[ss.length - 1]? = some p := by
      rw [← List.getLast?_eq_getElem?]; exact hlast
    rw [hd, oldest_of_le sp 1 ss p hlen ho]
    simp [float_div, hdt]

/-- Witness for C17: two slots; the third update is differenced against the first
sample, the second against the setpoint. -/
theorem pid_derivative_against_oldest_witness :
    ∃ pid0, pid_init 2 100 0 0 1 = .ok pid0 ∧
      (∃ outs pid d pid1, pid_run pid0 [(110, 1), (120, 1)] = .ok (outs, pid) ∧
        pid_derivative pid 130 2 = .ok (some d) ∧
        pid_control pid 130 2 = .ok (some (0 * (100 - 130) + 0 * pid1.integral + 1 * d), pid1) ∧
        d = (130 - 110) / 2) ∧
      (∃ outs pid d, pid_run pid0 [(110, 1)] = .ok (outs, pid) ∧
        pid_derivative pid 120 1 = .ok (some d) ∧ d = (120 - 100) / 1) := by
  obtain ⟨pid0, h0, hall⟩ :=
    (pid_derivative_against_oldest 2 100 0 0 1 (by decide) (by decide) (le_refl _)
      (le_refl _)).1
  refine ⟨pid0, h0, ?_, ?_⟩
  · obtain ⟨outs, pid, d, pid1, hrun, hd, hc, _, h2⟩ :=
      hall [(110, 1), (120, 1)] 130 2 (by norm_num)
    exact ⟨outs, pid, d, pid1, hrun, hd, hc, h2 (by decide) (110, 1) rfl⟩
  · obtain ⟨outs, pid, d, _, hrun, hd, _, h1, _⟩ := hall [(110, 1)] 120 1 (by norm_num)
    exact ⟨outs, pid, d, hrun, hd, h1 (by decide)⟩

/-! The contents of the buffers after any number of updates -/

/-- Every residue is taken by one of `N` consecutive numbers. -/
theorem exists_window_index (n N i : Nat) (hn : N ≤ n) (hi : i < N) :
    ∃ j, n ≤ j + N ∧ j < n ∧ j % N = i := by
  have hdm := Nat.div_add_mod (n - N) N
  have hr : (n - N) % N < N := Nat.mod_lt _ (by omega)
  by_cases hge : (n - N) % N ≤ i
  · refine ⟨N * ((n - N) / N) + i, by omega, by omega, ?_⟩
    rw [Nat.mul_add_mod, Nat.mod_eq_of_lt hi]
  · refine ⟨N * ((n - N) / N + 1) + i, ?_, ?_, ?_⟩
    · rw [Nat.mul_add, Nat.mul_one]; omega
    · rw [Nat.mul_add, Nat.mul_one]; omega
    · rw [Nat.mul_add_mod, Nat.mod_eq_of_lt hi]

/-- The last sample number with a given residue lies in the window. -/
theorem window_of_largest (n N j : Nat) (hN1 : 1 ≤ N) (hj1 : 1 ≤ j)
    (hmax : ∀ k, j < k → k ≤ n → (k - 1) % N ≠ (j - 1) % N) : n ≤ (j - 1) + N := by
  by_contra hlt
  have h := hmax (j + N) (by omega) (by omega)
  apply h
  have : j + N - 1 = (j - 1) + N := by omega
  rw [this, Nat.add_mod_right]

/-- C18. Buffer contents after `n` updates.  For a controller with `history_length`
`N`, `1 ≤ N ≤ 255`, and any `n` `pid_control` calls with samples
`(pv_1, dt_1), ..., (pv_n, dt_n)`, the calls return and the resulting state has
`current = n mod N` and, for each slot `i < N`,
`(history[i], interval[i]) = (pv_j, dt_j)` for the largest `j ≤ n` with
`(j - 1) mod N = i`, or `(setpoint, 1)` if there is no such `j`.  Hence for `n ≥ N` the
buffers hold exactly the last `N` samples (each of them in its slot, every slot holding
one of them) and `current` indexes the oldest of them. -/
theorem pid_buffer_contents (N : Nat) (sp Kp Ki Kd : ℚ) (ss : List (ℚ × ℚ))
    (hN1 : 1 ≤ N) (hN : N ≤ 255) (hKp : 0 ≤ Kp) (hKi : 0 ≤ Ki) :
    ∃ pid0 outs pid, pid_init N sp Kp Ki Kd = .ok pid0 ∧ pid_run pid0 ss = .ok (outs, pid) ∧
      pid.current = ss.length % N ∧
      pid.history.length = N ∧ pid.interval.length = N ∧
      (∀ i, i < N →
        (∀ j s, 1 ≤ j → j ≤ ss.length → (j - 1) % N = i →
          (∀ k, j < k → k ≤ ss.length → (k - 1) % N ≠ i) → ss[j - 1]? = some s →
          pid.history[i]? = some s.1 ∧ pid.interval[i]? = some s.2) ∧
        ((∀ j, 1 ≤ j → j ≤ ss.length → (j - 1) % N ≠ i) →
          pid.history[i]? = some sp ∧ pid.interval[i]? = some 1)) ∧
      (N ≤ ss.length →
        (∀ k s, k < N → ss[ss.length - N + k]? = some s →
          pid.history[(ss.length - N + k) % N]? = some s.1 ∧
          pid.interval[(ss.length - N + k) % N]? = some s.2) ∧
        (∀ i, i < N → ∃ k s, k < N ∧ ss[ss.length - N + k]? = some s ∧
          (ss.length - N + k) % N = i ∧
          pid.history[i]? = some s.1 ∧ pid.interval[i]? = some s.2) ∧
        ∀ o, ss[ss.length - N]? = some o →
          pid.history[pid.current]? = some o.1 ∧ pid.interval[pid.current]? = some o.2) := by
  have hN8 : N < 2 ^ 8 := by omega
  obtain ⟨outs, pid, hrun, _, hinv⟩ := pid_run_initial N sp Kp Ki Kd hN1 hN8 ss
  have hold := run_inv_oldest N sp Kp Ki Kd ss pid hN1 hinv
  obtain ⟨_, _, _, _, _, hcur, hl1, hl2, hnew, hinit, _⟩ := hinv
  refine ⟨pid_initial N sp Kp Ki Kd, outs, pid, pid_init_eq N sp Kp Ki Kd hN8 hKp hKi, hrun,
    hcur, hl1, hl2, ?_, ?_⟩
  · intro i hi
    constructor
    · intro j s hj1 _ hji hmax hs
      have hwin : ss.length ≤ (j - 1) + N :=
        window_of_largest ss.length N j hN1 hj1 (by rw [hji]; exact hmax)
      have h := hnew (j - 1) s hs hwin
      rw [hji] at h
      exact h
    · intro hnone
      have hle : ss.length ≤ i := by
        by_contra hlt
        exact hnone (i + 1) (by omega) (by omega)
          (by rw [Nat.add_sub_cancel]; exact Nat.mod_eq_of_lt hi)
      exact hinit i hle hi
  · intro hlen
    refine ⟨?_, ?_, ?_⟩
    · intro k s hk hs
      exact hnew _ s hs (by omega)
    · intro i hi
      obtain ⟨j, hj1, hj2, hj3⟩ := exists_window_index ss.length N i hlen hi
      have hget : ss[j]? = some ss[j] := List.getElem?_eq_getElem hj2
      have hjk : ss.length - N + (j - (ss.length - N)) = j := by omega
      have h := hnew j _ hget hj1
      rw [hj3] at h
      exact ⟨j - (ss.length - N), ss[j], by omega, by rw [hjk]; exact hget,
        by rw [hjk]; exact hj3, h⟩
    · intro o ho
      rw [oldest_of_le sp N ss o hlen ho] at hold
      exact hold

/-- Witness for C18: four samples on three slots; slot 0 holds the fourth sample, slots
1 and 2 the second and the third, and `current = 1` indexes the second, the oldest of
the last three. -/
theorem pid_buffer_contents_witness :
    ∃ pid0 outs pid, pid_init 3 100 1 2 3 = .ok pid0 ∧
      pid_run pid0 [(90, 1), (95, 2), (98, 1), (99, 3)] = .ok (outs, pid) ∧
      pid.current = 1 ∧
      pid.history[0]? = some 99 ∧ pid.interval[0]? = some 3 ∧
      pid.history[1]? = some 95 ∧ pid.interval[1]? = some 2 ∧
      pid.history[2]? = some 98 ∧ pid.interval[2]? = some 1 := by
  obtain ⟨pid0, outs, pid, h0, h1, h2, _, _, _, h3⟩ :=
    pid_buffer_contents 3 100 1 2 3 [(90, 1), (95, 2), (98, 1), (99, 3)]
      (by decide) (by decide) (by norm_num) (by norm_num)
  obtain ⟨h4, _, _⟩ := h3 (by decide)
  have a := h4 2 (99, 3) (by decide) rfl
  have b := h4 0 (95, 2) (by decide) rfl
  have c := h4 1 (98, 1) (by decide) rfl
  exact ⟨pid0, outs, pid, h0, h1, h2, a.1, a.2, b.1, b.2, c.1, c.2⟩

end Pid
